import Mathlib

/-!
# Codecs of `CBigNum` (src/bignum.h)

A shallow embedding of the conversion routines of `CBigNum`: the fixed-width
setters (`setint64`, `setuint64`, `setuint256`), the narrowing getters
(`getint`, `getuint256`), the little-endian byte codec (`setvch`, `getvch`),
the compact codec (`SetCompact`, `GetCompact`) and the hex parser (`SetHex`).

Conventions.
* A `BIGNUM` is a mathematical integer (`Int`).  The source holds an opaque
  `BIGNUM*` obtained from `BN_new`, the interface of OpenSSL 1.1 and later,
  where a zero value never carries a sign flag.
* A byte buffer is a `List Nat`; every store into an `unsigned char` is written
  with the reduction the C code performs.
* `unsigned long` and `BN_ULONG` are 64 bits wide, `unsigned int` and `int` are
  32 bits wide, and the host is little-endian (the layout `setuint256` and
  `getuint256` rely on when they address a `uint256` byte by byte).
* Every setter ignores the result of `BN_mpi2bn`; when the decoder rejects the
  buffer the object keeps its previous value, hence the `self` argument.
-/

namespace CBigNum

/-! ## The arithmetic collaborator (OpenSSL `BN_*`) -/

/-- Number of significant bits of `m`, counted by repeated halving;
`fuel` bounds the number of halvings. -/
def numBitsAux : Nat → Nat → Nat
  | 0, _ => 0
  | fuel + 1, m => if m = 0 then 0 else numBitsAux fuel (m / 2) + 1

/-- Modelled from the spec: `BN_num_bits` of the arithmetic collaborator, the
number of significant bits of the magnitude (`0` for zero). -/
def BN_num_bits (a : Int) : Nat := numBitsAux a.natAbs a.natAbs

/-- The `k` low-order bytes of `m`, most significant first. -/
def bigEndian : Nat → Nat → List Nat
  | 0, _ => []
  | k + 1, m => bigEndian k (m / 256) ++ [m % 256]

/-- Modelled from the spec: `BN_bn2bin` of the arithmetic collaborator, the
magnitude as `(BN_num_bits a + 7) / 8` big-endian bytes, no leading zero byte. -/
def BN_bn2bin (a : Int) : List Nat := bigEndian ((BN_num_bits a + 7) / 8) a.natAbs

/-- Modelled from the spec: `BN_bin2bn` of the arithmetic collaborator, the
non-negative integer whose big-endian bytes are `s`. -/
def BN_bin2bn (s : List Nat) : Nat := s.foldl (fun acc b => acc * 256 + b) 0

/-- Modelled from the spec: `BN_clear_bit` of the arithmetic collaborator, `a`
with bit `n` cleared. -/
def BN_clear_bit (a n : Nat) : Nat := a - (a / 2 ^ n % 2) * 2 ^ n

/-- Or `mask` into the first byte of a buffer (no effect on an empty one). -/
def orHead (mask : Nat) : List Nat → List Nat
  | [] => []
  | c :: rest => (c ||| mask) :: rest

/-- Modelled from the spec: `BN_bn2mpi` of the arithmetic collaborator (§3 "MPI
buffer", §4.1 "Encode").  A 4-byte big-endian length, then the payload: the
big-endian magnitude, preceded by a zero byte when the bit count is a positive
multiple of 8, with the sign flag or-ed into the first payload byte of a
negative value.  The length of the list is the `int` the call returns. -/
def BN_bn2mpi (a : Int) : List Nat :=
  let bits := BN_num_bits a
  let num := (bits + 7) / 8
  let ext := if 0 < bits ∧ bits &&& 0x07 = 0 then 1 else 0
  let l := num + ext
  let hdr := [(l >>> 24) &&& 0xff, (l >>> 16) &&& 0xff, (l >>> 8) &&& 0xff, l &&& 0xff]
  let body := (if ext = 1 then [0] else []) ++ BN_bn2bin a
  hdr ++ (if a < 0 then orHead 0x80 body else body)

/-- Modelled from the spec: `BN_mpi2bn` of the arithmetic collaborator (§3 "MPI
buffer", §4.1 "Decode") on the first `n` bytes of `d`.  `none` is the `NULL`
the library returns for a buffer shorter than its header, a length with its
top bit set, or a length that disagrees with `n`.  Otherwise the payload is
read as a big-endian number; when the high bit of its first byte is set the
value is negative and that bit (the top set bit) is cleared. -/
def BN_mpi2bn (d : List Nat) (n : Int) : Option Int :=
  if n < 4 ∨ d.getD 0 0 &&& 0x80 ≠ 0 then none
  else
    let len := (d.getD 0 0 <<< 24) ||| (d.getD 1 0 <<< 16) ||| (d.getD 2 0 <<< 8) ||| d.getD 3 0
    if (len : Int) + 4 ≠ n then none
    else if len = 0 then some 0
    else
      let payload := (d.drop 4).take len
      let a := BN_bin2bn payload
      if payload.getD 0 0 &&& 0x80 ≠ 0 then
        some (-((BN_clear_bit a (BN_num_bits a - 1) : Nat) : Int))
      else some a

/-- Modelled from the spec: `BN_get_word` of the arithmetic collaborator (§4.2
"Narrowing accessors"), the machine word of the magnitude.  A magnitude that
does not fit one 64-bit word is reported as the all-ones word, which is what
the OpenSSL function returns in that case. -/
def BN_get_word (a : Int) : Nat :=
  if a.natAbs < 2 ^ 64 then a.natAbs else 2 ^ 64 - 1

/-! ## Machine integers -/

/-- Value of a 64-bit pattern read as `int64`. -/
def wrapInt64 (x : Int) : Int := (x + 2 ^ 63) % 2 ^ 64 - 2 ^ 63

/-- Value of a 32-bit pattern read as `int`. -/
def wrapInt32 (x : Int) : Int := (x + 2 ^ 31) % 2 ^ 32 - 2 ^ 31

def INT_MAX : Int := 2 ^ 31 - 1

def INT_MIN : Int := -2 ^ 31

/-- The four header bytes the setters write from `unsigned int nSize`. -/
def sizeHeader (nSize : Nat) : List Nat :=
  [(nSize >>> 24) &&& 0xff, (nSize >>> 16) &&& 0xff, (nSize >>> 8) &&& 0xff, nSize &&& 0xff]

/-- The object after `BN_mpi2bn(pch, n, big_pointer)` with the result ignored. -/
def mpi2bnInto (self : Int) (pch : List Nat) (n : Int) : Int :=
  match BN_mpi2bn pch n with
  | some v => v
  | none => self

/-! ## `getint` -/

/-- `CBigNum::getint`. -/
def getint (self : Int) : Int :=
  let n := BN_get_word self
  if ¬ self < 0 then
    wrapInt32 (if (n : Int) > INT_MAX then INT_MAX else (n : Int))
  else
    if (n : Int) > INT_MAX then INT_MIN else wrapInt32 (-(wrapInt32 n))

/-! ## `setint64` -/

/-- The `for` loop of `setint64`: `i` iterations are left, `n` is the shifted
value, `p` the payload bytes written after `pch + 4` so far. -/
def setint64Loop (fNegative : Bool) : Nat → Int → Bool → List Nat → List Nat
  | 0, _, _, p => p
  | i + 1, n, fLeadingZeroes, p =>
    let c := ((n >>> (56 : Nat)) % 256).toNat
    let n := wrapInt64 (n * 2 ^ 8)
    if fLeadingZeroes then
      if c = 0 then setint64Loop fNegative i n true p
      else if c &&& 0x80 ≠ 0 then
        setint64Loop fNegative i n false (p ++ [if fNegative then 0x80 else 0] ++ [c])
      else if fNegative then
        setint64Loop fNegative i n false (p ++ [(c ||| 0x80) % 256])
      else setint64Loop fNegative i n false (p ++ [c])
    else setint64Loop fNegative i n false (p ++ [c])

/-- The value `n = -n` leaves in the `int64` variable. -/
def negateInt64 (n : Int) : Int := wrapInt64 (-n)

/-- Payload bytes `setint64` writes for the argument `n`. -/
def setint64Payload (n : Int) : List Nat :=
  let fNegative := decide (n < 0)
  let n := if n < 0 then negateInt64 n else n
  setint64Loop fNegative 8 n true []

/-- The buffer `pch[0 .. p - pch)` that `setint64` hands to `BN_mpi2bn`. -/
def setint64Buf (n : Int) : List Nat :=
  let p := setint64Payload n
  sizeHeader p.length ++ p

/-- `CBigNum::setint64`. -/
def setint64 (self : Int) (n : Int) : Int :=
  let pch := setint64Buf n
  mpi2bnInto self pch pch.length

/-! ## `setuint64` -/

/-- The `for` loop of `setuint64`: `i` iterations are left, `n` is the shifted
`uint64`, `p` the payload bytes written after `pch + 4` so far. -/
def setuint64Loop : Nat → Nat → Bool → List Nat → List Nat
  | 0, _, _, p => p
  | i + 1, n, fLeadingZeroes, p =>
    let c := (n >>> 56) &&& 0xff
    let n := (n <<< 8) % 2 ^ 64
    if fLeadingZeroes then
      if c = 0 then setuint64Loop i n true p
      else if c &&& 0x80 ≠ 0 then setuint64Loop i n false (p ++ [0] ++ [c])
      else setuint64Loop i n false (p ++ [c])
    else setuint64Loop i n false (p ++ [c])

/-- Payload bytes `setuint64` writes for the argument `n`. -/
def setuint64Payload (n : Nat) : List Nat := setuint64Loop 8 n true []

/-- The buffer `pch[0 .. p - pch)` that `setuint64` hands to `BN_mpi2bn`. -/
def setuint64Buf (n : Nat) : List Nat :=
  let p := setuint64Payload n
  sizeHeader p.length ++ p

/-- `CBigNum::setuint64`. -/
def setuint64 (self : Int) (n : Nat) : Int :=
  let pch := setuint64Buf n
  mpi2bnInto self pch pch.length

/-! ## `setuint256` and `getuint256` -/

/-- Modelled from the spec: the object representation of a `uint256`
(`uint256.h` is not among the sources), 32 bytes, least significant first. -/
def uint256Mem (n : Nat) : List Nat := (bigEndian 32 n).reverse

/-- Modelled from the spec: the `uint256` whose object representation is `mem`
(`uint256.h` is not among the sources). -/
def uint256Val (mem : List Nat) : Nat := BN_bin2bn mem.reverse

/-- The `while` loop of `setuint256`: `psrc` is the offset of the read pointer
from `pbegin`, `p` the payload bytes written after `pch + 4` so far. -/
def setuint256Loop (mem : List Nat) : Nat → Bool → List Nat → List Nat
  | 0, _, p => p
  | psrc + 1, fLeadingZeroes, p =>
    let c := mem.getD psrc 0
    if fLeadingZeroes then
      if c = 0 then setuint256Loop mem psrc true p
      else if c &&& 0x80 ≠ 0 then setuint256Loop mem psrc false (p ++ [0] ++ [c])
      else setuint256Loop mem psrc false (p ++ [c])
    else setuint256Loop mem psrc false (p ++ [c])

/-- Payload bytes `setuint256` writes for the argument `n`. -/
def setuint256Payload (n : Nat) : List Nat := setuint256Loop (uint256Mem n) 32 true []

/-- The buffer `pch[0 .. p - pch)` that `setuint256` hands to `BN_mpi2bn`. -/
def setuint256Buf (n : Nat) : List Nat :=
  let p := setuint256Payload n
  sizeHeader p.length ++ p

/-- `CBigNum::setuint256`. -/
def setuint256 (self : Int) (n : Nat) : Int :=
  let pch := setuint256Buf n
  mpi2bnInto self pch pch.length

/-- The copy loop of `getuint256`: `k` counts the iterations `i` may still do
before it reaches `sizeof(n)`, `n` is the object representation being filled. -/
def getuint256Loop (vch : List Nat) : Nat → Nat → Int → List Nat → List Nat
  | 0, _, _, n => n
  | k + 1, i, j, n =>
    if j ≥ 4 then getuint256Loop vch k (i + 1) (j - 1) (n.set i (vch.getD j.toNat 0))
    else n

/-- `CBigNum::getuint256`. -/
def getuint256 (self : Int) : Nat :=
  let nSize := (BN_bn2mpi self).length
  if nSize < 4 then 0
  else
    let vch := BN_bn2mpi self
    let vch := if vch.length > 4 then vch.set 4 (vch.getD 4 0 &&& 0x7f) else vch
    uint256Val (getuint256Loop vch 32 0 ((vch.length : Int) - 1) (List.replicate 32 0))

/-! ## `setvch` and `getvch` -/

/-- `CBigNum::setvch`. -/
def setvch (self : Int) (vch : List Nat) : Int :=
  let nSize := vch.length % 2 ^ 32
  let vch2 := sizeHeader nSize ++ vch.reverse
  mpi2bnInto self vch2 (wrapInt32 vch2.length)

/-- `CBigNum::getvch`. -/
def getvch (self : Int) : List Nat :=
  let nSize := (BN_bn2mpi self).length
  if nSize < 4 then []
  else ((BN_bn2mpi self).drop 4).reverse

/-! ## `SetCompact` and `GetCompact` -/

/-- `CBigNum::SetCompact`; `nCompact` is an `unsigned int`. -/
def SetCompact (self : Int) (nCompact : Nat) : Int :=
  let nSize := nCompact >>> 24
  let vch := List.replicate (4 + nSize) 0
  let vch := vch.set 3 (nSize % 256)
  let vch := if nSize ≥ 1 then vch.set 4 ((nCompact >>> 16) &&& 0xff) else vch
  let vch := if nSize ≥ 2 then vch.set 5 ((nCompact >>> 8) &&& 0xff) else vch
  let vch := if nSize ≥ 3 then vch.set 6 ((nCompact >>> 0) &&& 0xff) else vch
  mpi2bnInto self vch (wrapInt32 vch.length)

/-- `CBigNum::GetCompact`; the result is an `unsigned int`. -/
def GetCompact (self : Int) : Nat :=
  let vch := BN_bn2mpi self
  let nSize := vch.length - 4
  let nCompact := (nSize <<< 24) % 2 ^ 32
  let nCompact := if nSize ≥ 1 then nCompact ||| (vch.getD 4 0 <<< 16) else nCompact
  let nCompact := if nSize ≥ 2 then nCompact ||| (vch.getD 5 0 <<< 8) else nCompact
  let nCompact := if nSize ≥ 3 then nCompact ||| (vch.getD 6 0 <<< 0) else nCompact
  nCompact

/-! ## `SetHex` -/

/-- Modelled from the spec: `isspace` of the C library in the "C" locale. -/
def isspace (c : Char) : Bool := c.toNat = 32 || (9 ≤ c.toNat && c.toNat ≤ 13)

/-- Modelled from the spec: `isxdigit` of the C library. -/
def isxdigit (c : Char) : Bool :=
  (48 ≤ c.toNat && c.toNat ≤ 57) || (65 ≤ c.toNat && c.toNat ≤ 70) ||
    (97 ≤ c.toNat && c.toNat ≤ 102)

/-- Modelled from the spec: `tolower` of the C library in the "C" locale. -/
def tolower (c : Nat) : Nat := if 65 ≤ c ∧ c ≤ 90 then c + 32 else c

/-- The initialised part of the table `phexdigit` of `SetHex`; the remaining
entries of the 256 are zero. -/
def phexdigitInit : List Nat :=
  [0, 0, 0, 0, 0, 0, 0, 0, 0, 0, 0, 0, 0, 0, 0, 0,
   0, 0, 0, 0, 0, 0, 0, 0, 0, 0, 0, 0, 0, 0, 0, 0,
   0, 0, 0, 0, 0, 0, 0, 0, 0, 0, 0, 0, 0, 0, 0, 0,
   0, 1, 2, 3, 4, 5, 6, 7, 8, 9, 0, 0, 0, 0, 0, 0,
   0, 0xa, 0xb, 0xc, 0xd, 0xe, 0xf, 0, 0, 0, 0, 0, 0, 0, 0, 0,
   0, 0, 0, 0, 0, 0, 0, 0, 0, 0, 0, 0, 0, 0, 0, 0,
   0, 0xa, 0xb, 0xc, 0xd, 0xe, 0xf, 0, 0, 0, 0, 0, 0, 0, 0, 0]

/-- The table lookup `phexdigit[c]`. -/
def phexdigit (c : Char) : Nat := phexdigitInit.getD c.toNat 0

/-- The loops `while (isspace(*psz)) psz++`; the argument is the text from `psz`
up to the terminating NUL. -/
def skipSpaces : List Char → List Char
  | [] => []
  | c :: rest => if isspace c then skipSpaces rest else c :: rest

/-- The statement `if (*psz == '-') psz++`, paired with `fNegative`. -/
def skipSign : List Char → Bool × List Char
  | [] => (false, [])
  | c :: rest => if c = '-' then (true, rest) else (false, c :: rest)

/-- The statement `if (psz[0] == '0' && tolower(psz[1]) == 'x') psz += 2`. -/
def skipPrefix (psz : List Char) : List Char :=
  if psz.getD 0 (Char.ofNat 0) = '0' ∧ tolower (psz.getD 1 (Char.ofNat 0)).toNat = 'x'.toNat then psz.drop 2
  else psz

/-- The loop `while (isxdigit(*psz))` that shifts by 4 and adds the digit. -/
def hexLoop : List Char → Int → Int
  | [], self => self
  | c :: rest, self =>
    if isxdigit c then hexLoop rest (self * 2 ^ 4 + (phexdigit c : Nat)) else self

/-- `CBigNum::SetHex`; the previous value of the object is overwritten. -/
def SetHex (str : String) : Int :=
  let psz := skipSpaces str.toList
  let (fNegative, psz) := skipSign psz
  let psz := skipPrefix psz
  let psz := skipSpaces psz
  let self := hexLoop psz 0
  if fNegative then 0 - self else self

/-! ## Definitions used in the statements and proofs -/

/-- Number of significant bits of a natural number. -/
def nbits (m : Nat) : Nat := numBitsAux m m

/-- Natural byte count of a magnitude: the length of `BN_bn2bin`. -/
def nbytes (m : Nat) : Nat := (nbits m + 7) / 8

/-- What `BN_mpi2bn` makes of a payload. -/
def decodePayload (p : List Nat) : Int :=
  if p.getD 0 0 &&& 0x80 ≠ 0 then
    -((BN_clear_bit (BN_bin2bn p) (BN_num_bits (BN_bin2bn p) - 1) : Nat) : Int)
  else BN_bin2bn p

/-- The payload the MPI format prescribes for the natural byte string `bs` of a
magnitude: a leading byte with bit 7 set is preceded by a byte that carries the
sign flag only, otherwise the sign flag is or-ed into the leading byte. -/
def signPad (neg : Bool) : List Nat → List Nat
  | [] => []
  | c :: rest =>
    if c &&& 0x80 ≠ 0 then (if neg then 0x80 else 0) :: c :: rest
    else (if neg then c ||| 0x80 else c) :: rest

/-- The payload of the MPI encoding of `a`. -/
def mpiPayload (a : Int) : List Nat := signPad (decide (a < 0)) (BN_bn2bin a)

/-- The body shared by the loops of `setint64`, `setuint64` and `setuint256`,
run over the bytes `cs` they read, most significant first. -/
def emitBytes (neg : Bool) : List Nat → Bool → List Nat → List Nat
  | [], _, p => p
  | c :: cs, lead, p =>
    if lead then
      if c = 0 then emitBytes neg cs true p
      else if c &&& 0x80 ≠ 0 then
        emitBytes neg cs false (p ++ [if neg then 0x80 else 0] ++ [c])
      else if neg then emitBytes neg cs false (p ++ [(c ||| 0x80) % 256])
      else emitBytes neg cs false (p ++ [c])
    else emitBytes neg cs false (p ++ [c])

/-- The statement `vch[4] &= 0x7f` seen on the payload. -/
def maskHead : List Nat → List Nat
  | [] => []
  | c :: rest => (c &&& 0x7f) :: rest

/-- The natural byte string of a magnitude: its base-256 digits, most
significant first, none for zero. -/
def naturalBytes (m : Nat) : List Nat := (Nat.digits 256 m).reverse

/-- Value of one hexadecimal digit, `a`-`f` in either case. -/
def hexDigitValue (c : Char) : Nat :=
  if 48 ≤ c.toNat ∧ c.toNat ≤ 57 then c.toNat - 48
  else if 97 ≤ c.toNat ∧ c.toNat ≤ 102 then c.toNat - 97 + 10
  else if 65 ≤ c.toNat ∧ c.toNat ≤ 70 then c.toNat - 65 + 10
  else 0

/-- The number a string of hexadecimal digits denotes in base 16, read left to
right as `value = value * 16 + digit`. -/
def hexValue (d : List Char) : Nat := d.foldl (fun v c => v * 16 + hexDigitValue c) 0

/-- What the remaining text may start with for the digit loop to stop. -/
def stopsDigits (tail : List Char) : Prop := ∀ c ∈ tail.head?, isxdigit c = false

/-- Size of the stack buffer `pch` of `setint64` and `setuint64`,
`sizeof(n) + 6` with an 8-byte `n`. -/
def pchSize64 : Nat := 8 + 6

/-- Size of the stack buffer `pch` of `setuint256`, `sizeof(n) + 6` with a
32-byte `n`. -/
def pchSize256 : Nat := 32 + 6

/-- The buffer `vch` that `SetCompact` hands to `BN_mpi2bn`. -/
def SetCompactBuf (nCompact : Nat) : List Nat :=
  let nSize := nCompact >>> 24
  let vch := List.replicate (4 + nSize) 0
  let vch := vch.set 3 (nSize % 256)
  let vch := if nSize ≥ 1 then vch.set 4 ((nCompact >>> 16) &&& 0xff) else vch
  let vch := if nSize ≥ 2 then vch.set 5 ((nCompact >>> 8) &&& 0xff) else vch
  let vch := if nSize ≥ 3 then vch.set 6 ((nCompact >>> 0) &&& 0xff) else vch
  vch

/-- The payload of `SetCompactBuf`: the mantissa bytes of the word, cut to the
exponent or followed by zero bytes up to it. -/
def compactPayload (c : Nat) : List Nat :=
  ([(c >>> 16) &&& 0xff, (c >>> 8) &&& 0xff, (c >>> 0) &&& 0xff]
    ++ List.replicate ((c >>> 24) - 3) 0).take (c >>> 24)

/-- The magnitude a compact word denotes: with `n = c >> 24` and
`m = c & 0x007fffff`, `m * 256^(n-3)` for `n ≥ 3` and `m / 256^(3-n)` below. -/
def compactMagnitude (c : Nat) : Nat :=
  if 3 ≤ c >>> 24 then (c &&& 0x007fffff) * 256 ^ ((c >>> 24) - 3)
  else (c &&& 0x007fffff) / 256 ^ (3 - (c >>> 24))

/-- The number a byte vector denotes when read least significant byte first:
the sum of `b[i] * 256^i`. -/
def littleEndianValue : List Nat → Nat
  | [] => 0
  | x :: rest => x + 256 * littleEndianValue rest

/-! ## Bit operations as arithmetic -/

theorem and_ff (x : Nat) : x &&& 0xff = x % 256 := Nat.and_pow_two_sub_one_eq_mod x 8

theorem and_07 (x : Nat) : x &&& 0x07 = x % 8 := Nat.and_pow_two_sub_one_eq_mod x 3

set_option maxRecDepth 100000 in
theorem and_80_ne_zero : ∀ c, c < 256 → (c &&& 0x80 ≠ 0 ↔ 128 ≤ c) := by decide

theorem or_80 : ∀ c, c < 128 → c ||| 0x80 = c + 128 := by decide

set_option maxRecDepth 100000 in
theorem and_7f : ∀ c, c < 256 → c &&& 0x7f = c % 128 := by decide

theorem or_bytes (a b c d : Nat) (hb : b < 256) (hc : c < 256) (hd : d < 256) :
    (a <<< 24) ||| (b <<< 16) ||| (c <<< 8) ||| d = a * 2 ^ 24 + b * 2 ^ 16 + c * 2 ^ 8 + d := by
  simp only [Nat.shiftLeft_eq]
  have h1 : a * 2 ^ 24 ||| b * 2 ^ 16 = 2 ^ 16 * (a * 2 ^ 8 + b) := by
    have := Nat.mul_add_lt_is_or (show b * 2 ^ 16 < 2 ^ 24 by omega) a
    rw [Nat.mul_comm (2 ^ 24) a] at this
    rw [← this]; ring
  have h2 : 2 ^ 16 * (a * 2 ^ 8 + b) ||| c * 2 ^ 8 = 2 ^ 8 * (a * 2 ^ 16 + b * 2 ^ 8 + c) := by
    rw [← Nat.mul_add_lt_is_or (show c * 2 ^ 8 < 2 ^ 16 by omega)]; ring
  rw [h1, h2, ← Nat.mul_add_lt_is_or (show d < 2 ^ 8 by omega)]; ring

theorem header_len (l : Nat) (h : l < 2 ^ 32) :
    (((l >>> 24) &&& 0xff) <<< 24) ||| (((l >>> 16) &&& 0xff) <<< 16) |||
      (((l >>> 8) &&& 0xff) <<< 8) ||| (l &&& 0xff) = l := by
  rw [or_bytes _ _ _ _ (by rw [and_ff]; omega) (by rw [and_ff]; omega) (by rw [and_ff]; omega)]
  simp only [and_ff, Nat.shiftRight_eq_div_pow]
  omega

/-! ## Bit counts -/

theorem numBitsAux_spec : ∀ fuel m, m ≤ fuel →
    m < 2 ^ numBitsAux fuel m ∧ (m ≠ 0 → 2 ^ (numBitsAux fuel m - 1) ≤ m) := by
  intro fuel
  induction fuel with
  | zero =>
    intro m hm
    have : m = 0 := by omega
    subst this
    simp [numBitsAux]
  | succ f ih =>
    intro m hm
    by_cases h0 : m = 0
    · subst h0; simp [numBitsAux]
    · have hle : m / 2 ≤ f := by omega
      obtain ⟨h1, h2⟩ := ih (m / 2) hle
      simp only [numBitsAux, if_neg h0, Nat.add_sub_cancel]
      refine ⟨?_, fun _ => ?_⟩
      · rw [pow_succ]; omega
      · by_cases h3 : m / 2 = 0
        · have hz : numBitsAux f (m / 2) = 0 := by
            rw [h3]; cases f <;> simp [numBitsAux]
          rw [hz]; simp; omega
        · have h4 := h2 h3
          have hpos : 0 < numBitsAux f (m / 2) := by
            rcases Nat.eq_zero_or_pos (numBitsAux f (m / 2)) with h | h
            · rw [h] at h1; simp at h1; omega
            · exact h
          have : numBitsAux f (m / 2) = (numBitsAux f (m / 2) - 1) + 1 := by omega
          rw [this, pow_succ]; omega

theorem BN_num_bits_eq (a : Int) : BN_num_bits a = nbits a.natAbs := rfl

theorem lt_two_pow_nbits (m : Nat) : m < 2 ^ nbits m := (numBitsAux_spec m m le_rfl).1

theorem two_pow_nbits_le (m : Nat) (h : m ≠ 0) : 2 ^ (nbits m - 1) ≤ m :=
  (numBitsAux_spec m m le_rfl).2 h

theorem nbits_zero : nbits 0 = 0 := rfl

theorem nbits_pos (m : Nat) (h : m ≠ 0) : 0 < nbits m := by
  rcases Nat.eq_zero_or_pos (nbits m) with h0 | h0
  · have := lt_two_pow_nbits m
    rw [h0] at this; simp at this; omega
  · exact h0

theorem nbits_eq (m k : Nat) (h1 : 2 ^ k ≤ m) (h2 : m < 2 ^ (k + 1)) : nbits m = k + 1 := by
  have hm : m ≠ 0 := by
    have := Nat.two_pow_pos k; omega
  have a1 := lt_two_pow_nbits m
  have a2 := two_pow_nbits_le m hm
  have b1 : k < nbits m := (Nat.pow_lt_pow_iff_right (by norm_num : 1 < 2)).1 (lt_of_le_of_lt h1 a1)
  have b2 : nbits m - 1 < k + 1 :=
    (Nat.pow_lt_pow_iff_right (by norm_num : 1 < 2)).1 (lt_of_le_of_lt a2 h2)
  omega

/-! ## Big-endian byte strings -/

theorem length_bigEndian : ∀ k m, (bigEndian k m).length = k := by
  intro k
  induction k with
  | zero => intro m; rfl
  | succ k ih => intro m; simp [bigEndian, ih]

theorem bigEndian_lt : ∀ k m b, b ∈ bigEndian k m → b < 256 := by
  intro k
  induction k with
  | zero => intro m b hb; simp [bigEndian] at hb
  | succ k ih =>
    intro m b hb
    simp only [bigEndian, List.mem_append, List.mem_singleton] at hb
    rcases hb with hb | hb
    · exact ih _ _ hb
    · omega

theorem bigEndian_succ : ∀ k m, bigEndian (k + 1) m = (m / 256 ^ k % 256) :: bigEndian k m := by
  intro k
  induction k with
  | zero => intro m; simp [bigEndian]
  | succ k ih =>
    intro m
    rw [bigEndian, ih (m / 256)]
    simp only [List.cons_append]
    rw [Nat.div_div_eq_div_mul, ← pow_succ']
    rfl

theorem bin2bn_nil : BN_bin2bn [] = 0 := rfl

theorem bin2bn_append_single (s : List Nat) (b : Nat) :
    BN_bin2bn (s ++ [b]) = BN_bin2bn s * 256 + b := by
  simp [BN_bin2bn, List.foldl_append]

theorem foldl_bin2bn (s : List Nat) : ∀ acc,
    s.foldl (fun acc b => acc * 256 + b) acc = acc * 256 ^ s.length + BN_bin2bn s := by
  induction s with
  | nil => intro acc; simp [BN_bin2bn]
  | cons a s ih =>
    intro acc
    simp only [List.foldl_cons, List.length_cons, BN_bin2bn]
    rw [ih (acc * 256 + a), ih (0 * 256 + a)]
    ring

theorem bin2bn_cons (a : Nat) (s : List Nat) :
    BN_bin2bn (a :: s) = a * 256 ^ s.length + BN_bin2bn s := by
  simp only [BN_bin2bn, List.foldl_cons]
  rw [foldl_bin2bn]
  simp [BN_bin2bn]

theorem bin2bn_append (s t : List Nat) :
    BN_bin2bn (s ++ t) = BN_bin2bn s * 256 ^ t.length + BN_bin2bn t := by
  simp only [BN_bin2bn, List.foldl_append]
  rw [foldl_bin2bn]
  simp [BN_bin2bn]

theorem bin2bn_lt (s : List Nat) (h : ∀ b ∈ s, b < 256) : BN_bin2bn s < 256 ^ s.length := by
  induction s with
  | nil => simp [BN_bin2bn]
  | cons a s ih =>
    rw [bin2bn_cons, List.length_cons, pow_succ]
    have ha : a < 256 := h a (List.mem_cons_self _ _)
    have hs := ih (fun b hb => h b (List.mem_cons_of_mem _ hb))
    nlinarith

theorem bin2bn_bigEndian : ∀ k m, BN_bin2bn (bigEndian k m) = m % 256 ^ k := by
  intro k
  induction k with
  | zero => intro m; simp [bigEndian, BN_bin2bn, Nat.mod_one]
  | succ k ih =>
    intro m
    rw [bigEndian, bin2bn_append_single, ih, pow_succ, Nat.mul_comm (256 ^ k) 256, Nat.mod_mul]
    ring

/-! ## Byte counts -/

theorem lt_nbits_iff (m k : Nat) : k < nbits m ↔ 2 ^ k ≤ m := by
  constructor
  · intro h
    have hm : m ≠ 0 := by
      rintro rfl
      rw [nbits_zero] at h; omega
    exact le_trans (Nat.pow_le_pow_right (by norm_num) (by omega)) (two_pow_nbits_le m hm)
  · intro h
    exact (Nat.pow_lt_pow_iff_right (by norm_num : 1 < 2)).1 (lt_of_le_of_lt h (lt_two_pow_nbits m))

theorem nbits_le_iff (m k : Nat) : nbits m ≤ k ↔ m < 2 ^ k := by
  have := lt_nbits_iff m k
  omega

theorem pow256 (k : Nat) : 256 ^ k = 2 ^ (8 * k) := by
  rw [pow_mul]; norm_num

theorem BN_bn2bin_eq (a : Int) : BN_bn2bin a = bigEndian (nbytes a.natAbs) a.natAbs := rfl

theorem lt_nbytes_iff (m k : Nat) : k < nbytes m ↔ 256 ^ k ≤ m := by
  rw [pow256, ← lt_nbits_iff]
  unfold nbytes
  omega

theorem nbytes_le_iff (m k : Nat) : nbytes m ≤ k ↔ m < 256 ^ k := by
  have := lt_nbytes_iff m k
  omega

theorem lt_pow_nbytes (m : Nat) : m < 256 ^ nbytes m := (nbytes_le_iff m _).1 le_rfl

theorem nbytes_zero : nbytes 0 = 0 := rfl

theorem dropWhile_bigEndian : ∀ k m, m < 256 ^ k →
    (bigEndian k m).dropWhile (fun c => decide (c = 0)) = bigEndian (nbytes m) m := by
  intro k
  induction k with
  | zero =>
    intro m hm
    have : m = 0 := by simpa using hm
    subst this
    rfl
  | succ k ih =>
    intro m hm
    rw [bigEndian_succ]
    by_cases h : m < 256 ^ k
    · have h0 : m / 256 ^ k % 256 = 0 := by
        rw [Nat.div_eq_of_lt h]
      rw [h0]
      simpa using ih m h
    · have hk : nbytes m = k + 1 := by
        have h1 := (lt_nbytes_iff m k).2 (by omega)
        have h2 := (nbytes_le_iff m (k + 1)).2 hm
        omega
      have hne : m / 256 ^ k % 256 ≠ 0 := by
        have hpos : 0 < 256 ^ k := pow_pos (by norm_num) k
        have h1 : m / 256 ^ k < 256 := by
          rw [Nat.div_lt_iff_lt_mul hpos]
          rw [pow_succ] at hm; linarith
        have h2 : 0 < m / 256 ^ k := Nat.div_pos (by omega) hpos
        rw [Nat.mod_eq_of_lt h1]; omega
      rw [List.dropWhile_cons_of_neg (by simpa using hne), hk, bigEndian_succ]

/-- The head of the natural byte string of a non-zero magnitude. -/
theorem bigEndian_nbytes (m : Nat) (hm : m ≠ 0) :
    ∃ h rest, bigEndian (nbytes m) m = h :: rest ∧ h ≠ 0 ∧ h < 256 ∧
      rest.length + 1 = nbytes m ∧ (128 ≤ h ↔ nbits m % 8 = 0) := by
  have hpos : 0 < nbytes m := (lt_nbytes_iff m 0).2 (by simpa using Nat.pos_of_ne_zero hm)
  obtain ⟨k, hk⟩ : ∃ k, nbytes m = k + 1 := ⟨nbytes m - 1, by omega⟩
  have hp : 0 < 256 ^ k := pow_pos (by norm_num) k
  have hlt : m < 256 ^ (k + 1) := hk ▸ lt_pow_nbytes m
  have hle : 256 ^ k ≤ m := (lt_nbytes_iff m k).1 (by omega)
  have h1 : m / 256 ^ k < 256 := by
    rw [Nat.div_lt_iff_lt_mul hp]
    rw [pow_succ] at hlt; linarith
  have h2 : 0 < m / 256 ^ k := Nat.div_pos hle hp
  refine ⟨m / 256 ^ k, bigEndian k m, ?_, by omega, h1, ?_, ?_⟩
  · rw [hk, bigEndian_succ, Nat.mod_eq_of_lt h1]
  · rw [length_bigEndian, hk]
  · rw [Nat.le_div_iff_mul_le hp]
    have e : 128 * 256 ^ k = 2 ^ (8 * k + 7) := by
      rw [pow256, pow_add]; ring
    rw [e, ← lt_nbits_iff]
    have hb : nbits m ≤ 8 * (k + 1) := by
      rw [nbits_le_iff, ← pow256]; exact hlt
    unfold nbytes at hk
    omega

/-! ## Decoding a well-formed MPI buffer -/

theorem decodePayload_nil : decodePayload [] = 0 := by decide

theorem sizeHeader_length (l : Nat) : (sizeHeader l).length = 4 := rfl

theorem mpi2bn_wellformed (p : List Nat) (h : p.length < 2 ^ 31) :
    BN_mpi2bn (sizeHeader p.length ++ p) ((p.length : Int) + 4) = some (decodePayload p) := by
  have hl := header_len p.length (by omega)
  have h0 : ¬ ((p.length >>> 24) &&& 0xff) &&& 0x80 ≠ 0 := by
    rw [and_80_ne_zero _ (by rw [and_ff]; omega), and_ff, Nat.shiftRight_eq_div_pow]
    omega
  unfold BN_mpi2bn
  simp only [sizeHeader, List.cons_append, List.nil_append, List.getD_cons_zero,
    List.getD_cons_succ, hl]
  rw [if_neg (by
    intro hc
    rcases hc with hc | hc
    · omega
    · exact h0 hc)]
  simp only [ne_eq, not_true_eq_false, if_false]
  by_cases hp : p.length = 0
  · rw [if_pos hp]
    have : p = [] := List.length_eq_zero.1 hp
    subst this
    rfl
  · rw [if_neg hp]
    simp only [List.drop_succ_cons, List.drop_zero, List.take_length]
    unfold decodePayload
    split_ifs <;> first | rfl | contradiction

theorem decodePayload_cons (h : Nat) (rest : List Nat) (hh : h < 256)
    (hr : ∀ b ∈ rest, b < 256) :
    decodePayload (h :: rest) =
      if 128 ≤ h then -(((h - 128) * 256 ^ rest.length + BN_bin2bn rest : Nat) : Int)
      else ((h * 256 ^ rest.length + BN_bin2bn rest : Nat) : Int) := by
  unfold decodePayload
  simp only [List.getD_cons_zero]
  have hlt := bin2bn_lt rest hr
  have hp : 0 < 256 ^ rest.length := pow_pos (by norm_num) _
  by_cases hs : 128 ≤ h
  · rw [if_pos ((and_80_ne_zero h hh).2 hs), if_pos hs, bin2bn_cons]
    have e : 128 * 256 ^ rest.length = 2 ^ (8 * rest.length + 7) := by
      rw [pow256, pow_add]; ring
    have e2 : 2 ^ (8 * rest.length + 7 + 1) = 256 * 256 ^ rest.length := by
      rw [pow256, pow_add, pow_add]; ring
    have m1 := Nat.mul_le_mul_right (256 ^ rest.length) hs
    have m2 := Nat.mul_le_mul_right (256 ^ rest.length) (show h + 1 ≤ 256 by omega)
    rw [Nat.add_mul, Nat.one_mul] at m2
    set a := h * 256 ^ rest.length + BN_bin2bn rest with ha
    have h1 : 2 ^ (8 * rest.length + 7) ≤ a := by
      rw [← e]; omega
    have h2 : a < 2 ^ (8 * rest.length + 7 + 1) := by
      rw [e2]; omega
    have hb : BN_num_bits (a : Int) = 8 * rest.length + 7 + 1 := by
      rw [BN_num_bits_eq, Int.natAbs_ofNat]
      exact nbits_eq a _ h1 h2
    rw [hb, Nat.add_sub_cancel]
    have hq : a / 2 ^ (8 * rest.length + 7) = 1 := by
      apply Nat.div_eq_of_lt_le
      · simpa using h1
      · rw [pow_succ] at h2; linarith
    unfold BN_clear_bit
    rw [hq, ← e]
    congr 2
    have : h = (h - 128) + 128 := by omega
    rw [ha]
    nth_rewrite 1 [this]
    rw [Nat.add_mul]
    simp
    omega
  · rw [if_neg (fun hc => hs ((and_80_ne_zero h hh).1 hc)), if_neg hs, bin2bn_cons]

/-! ## The sign-padding rule -/

theorem decodePayload_signPad (neg : Bool) (bs : List Nat) (hb : ∀ b ∈ bs, b < 256) :
    decodePayload (signPad neg bs) = if neg then -(BN_bin2bn bs : Int) else BN_bin2bn bs := by
  cases bs with
  | nil => cases neg <;> simp [signPad, decodePayload_nil, bin2bn_nil]
  | cons c rest =>
    have hc : c < 256 := hb c (List.mem_cons_self _ _)
    have hr : ∀ b ∈ rest, b < 256 := fun b h => hb b (List.mem_cons_of_mem _ h)
    simp only [signPad]
    by_cases hs : 128 ≤ c
    · rw [if_pos ((and_80_ne_zero c hc).2 hs)]
      cases neg
      · simp only [Bool.false_eq_true, if_false]
        rw [decodePayload_cons 0 (c :: rest) (by norm_num) hb, if_neg (by norm_num)]
        simp
      · simp only [if_true]
        rw [decodePayload_cons 0x80 (c :: rest) (by norm_num) hb, if_pos (by norm_num)]
        simp
    · rw [if_neg (fun h => hs ((and_80_ne_zero c hc).1 h))]
      cases neg
      · simp only [Bool.false_eq_true, if_false]
        rw [decodePayload_cons c rest hc hr, if_neg hs, bin2bn_cons]
      · simp only [if_true]
        rw [or_80 c (by omega), decodePayload_cons (c + 128) rest (by omega) hr,
          if_pos (by omega), bin2bn_cons]
        simp

theorem signPad_length_le (neg : Bool) (bs : List Nat) :
    (signPad neg bs).length ≤ bs.length + 1 := by
  cases bs with
  | nil => simp [signPad]
  | cons c rest =>
    simp only [signPad]
    split <;> simp

/-! ## The encoder in terms of the sign-padding rule -/

theorem BN_bn2bin_lt (a : Int) : ∀ b ∈ BN_bn2bin a, b < 256 := bigEndian_lt _ _

theorem bin2bn_bn2bin (a : Int) : BN_bin2bn (BN_bn2bin a) = a.natAbs := by
  rw [BN_bn2bin_eq, bin2bn_bigEndian, Nat.mod_eq_of_lt (lt_pow_nbytes _)]

theorem BN_bn2bin_zero : BN_bn2bin 0 = [] := rfl

theorem BN_bn2mpi_eq (a : Int) :
    BN_bn2mpi a = sizeHeader (mpiPayload a).length ++ mpiPayload a := by
  by_cases h0 : a = 0
  · subst h0; rfl
  · have hm : a.natAbs ≠ 0 := by simpa using h0
    obtain ⟨h, rest, e, hne, hlt, hlen, hbit⟩ := bigEndian_nbytes a.natAbs hm
    have hpos := nbits_pos a.natAbs hm
    have hnum : (nbits a.natAbs + 7) / 8 = rest.length + 1 := hlen.symm
    unfold mpiPayload
    unfold BN_bn2mpi
    simp only [BN_bn2bin_eq, BN_num_bits_eq, e, and_07, hnum, signPad]
    by_cases hs : 128 ≤ h
    · have hb := hbit.1 hs
      rw [if_pos ((and_80_ne_zero h hlt).2 hs)]
      simp only [hpos, hb, and_self, if_true, List.singleton_append, List.length_cons]
      by_cases hneg : a < 0
      · simp [hneg, orHead, sizeHeader]
      · simp [hneg, sizeHeader]
    · have hb : ¬ nbits a.natAbs % 8 = 0 := fun hc => hs (hbit.2 hc)
      rw [if_neg (fun hc => hs ((and_80_ne_zero h hlt).1 hc))]
      simp only [hb, and_false, if_false, List.nil_append, List.length_cons]
      by_cases hneg : a < 0
      · simp [hneg, orHead, sizeHeader]
      · simp [hneg, sizeHeader]

theorem decodePayload_mpiPayload (a : Int) : decodePayload (mpiPayload a) = a := by
  unfold mpiPayload
  rw [decodePayload_signPad _ _ (BN_bn2bin_lt a), bin2bn_bn2bin]
  by_cases h : a < 0
  · simp only [h, decide_True, if_true]; omega
  · simp only [h, decide_False, Bool.false_eq_true, if_false]; omega

theorem BN_bn2mpi_length (a : Int) : (BN_bn2mpi a).length = (mpiPayload a).length + 4 := by
  rw [BN_bn2mpi_eq, List.length_append, sizeHeader_length]; omega

/-- Decoding undoes encoding whenever the encoded length fits the `int` that
`BN_bn2mpi` returns. -/
theorem mpi2bn_bn2mpi (a : Int) (h : (mpiPayload a).length < 2 ^ 31) :
    BN_mpi2bn (BN_bn2mpi a) ((mpiPayload a).length + 4) = some a := by
  rw [BN_bn2mpi_eq, mpi2bn_wellformed _ h, decodePayload_mpiPayload]

/-! ## The byte-wise rule of the setter loops -/

theorem emitBytes_false (neg : Bool) : ∀ cs p, emitBytes neg cs false p = p ++ cs := by
  intro cs
  induction cs with
  | nil => intro p; simp [emitBytes]
  | cons c cs ih => intro p; simp [emitBytes, ih]

theorem emitBytes_true (neg : Bool) : ∀ cs, (∀ b ∈ cs, b < 256) →
    emitBytes neg cs true [] = signPad neg (cs.dropWhile (fun c => decide (c = 0))) := by
  intro cs
  induction cs with
  | nil => intro _; rfl
  | cons c cs ih =>
    intro hb
    have hc : c < 256 := hb c (List.mem_cons_self _ _)
    by_cases h0 : c = 0
    · subst h0
      simpa [emitBytes] using ih (fun b h => hb b (List.mem_cons_of_mem _ h))
    · rw [List.dropWhile_cons_of_neg (by simpa using h0)]
      simp only [emitBytes, if_true, if_neg h0, signPad, List.nil_append]
      by_cases hs : 128 ≤ c
      · have := (and_80_ne_zero c hc).2 hs
        rw [if_pos this, if_pos this, emitBytes_false]
        rfl
      · have : ¬ c &&& 0x80 ≠ 0 := fun h => hs ((and_80_ne_zero c hc).1 h)
        rw [if_neg this, if_neg this]
        have hm : (c ||| 0x80) % 256 = c ||| 0x80 := by
          rw [or_80 c (by omega)]; omega
        cases neg <;> simp [emitBytes_false, hm]

/-- The three loops all produce the MPI payload of the value they are given. -/
theorem emitBytes_bigEndian (neg : Bool) (k m : Nat) (h : m < 256 ^ k) :
    emitBytes neg (bigEndian k m) true [] = signPad neg (bigEndian (nbytes m) m) := by
  rw [emitBytes_true neg _ (bigEndian_lt k m), dropWhile_bigEndian k m h]

/-! ## The setter loops -/

theorem setuint64Loop_eq (lead : Bool) : ∀ i, i ≤ 8 → ∀ (u : Nat) (p : List Nat),
    setuint64Loop i (u % 256 ^ i * 256 ^ (8 - i)) lead p = emitBytes false (bigEndian i u) lead p := by
  intro i
  induction i generalizing lead with
  | zero => intro _ u p; simp [setuint64Loop, bigEndian, emitBytes]
  | succ i ih =>
    intro hi u p
    have hc : ((u % 256 ^ (i + 1) * 256 ^ (8 - (i + 1))) >>> 56) &&& 0xff = u / 256 ^ i % 256 := by
      rw [and_ff, Nat.shiftRight_eq_div_pow]
      have hi7 : i ≤ 7 := by omega
      interval_cases i <;> norm_num <;> omega
    have hn : ((u % 256 ^ (i + 1) * 256 ^ (8 - (i + 1))) <<< 8) % 2 ^ 64
        = u % 256 ^ i * 256 ^ (8 - i) := by
      rw [Nat.shiftLeft_eq]
      have hi7 : i ≤ 7 := by omega
      interval_cases i <;> norm_num <;> omega
    rw [bigEndian_succ]
    simp only [setuint64Loop, hc, hn, emitBytes]
    have h1 := fun p => ih true (by omega) u p
    have h2 := fun p => ih false (by omega) u p
    cases lead <;> simp [h1, h2]

theorem setuint64Payload_eq (n : Nat) (h : n < 2 ^ 64) :
    setuint64Payload n = mpiPayload n := by
  have := setuint64Loop_eq true 8 le_rfl n []
  simp only [Nat.sub_self, pow_zero, Nat.mul_one] at this
  rw [Nat.mod_eq_of_lt (by norm_num; omega)] at this
  unfold setuint64Payload
  rw [this, emitBytes_bigEndian false 8 n (by norm_num; omega)]
  have hneg : ¬ ((n : Int) < 0) := by omega
  simp [mpiPayload, BN_bn2bin_eq, hneg]

theorem setint64Loop_eq (neg lead : Bool) : ∀ i, i ≤ 8 → ∀ (u : Nat) (n : Int) (p : List Nat),
    -2 ^ 63 ≤ n → n < 2 ^ 63 → n % 2 ^ 64 = ((u % 256 ^ i * 256 ^ (8 - i) : Nat) : Int) →
    setint64Loop neg i n lead p = emitBytes neg (bigEndian i u) lead p := by
  intro i
  induction i generalizing lead with
  | zero => intro _ u n p _ _ _; simp [setint64Loop, bigEndian, emitBytes]
  | succ i ih =>
    intro hi u n p hlo hhi hn
    have hi7 : i ≤ 7 := by omega
    have hc : ((n >>> (56 : Nat)) % 256).toNat = u / 256 ^ i % 256 := by
      rw [Int.shiftRight_eq_div_pow]
      interval_cases i <;> norm_num at hn ⊢ <;> omega
    have hw1 : -2 ^ 63 ≤ wrapInt64 (n * 2 ^ 8) := by unfold wrapInt64; omega
    have hw2 : wrapInt64 (n * 2 ^ 8) < 2 ^ 63 := by unfold wrapInt64; omega
    have hw3 : wrapInt64 (n * 2 ^ 8) % 2 ^ 64 = ((u % 256 ^ i * 256 ^ (8 - i) : Nat) : Int) := by
      unfold wrapInt64
      interval_cases i <;> norm_num at hn ⊢ <;> omega
    rw [bigEndian_succ]
    simp only [setint64Loop, hc, emitBytes]
    have h1 := fun p => ih true (by omega) u _ p hw1 hw2 hw3
    have h2 := fun p => ih false (by omega) u _ p hw1 hw2 hw3
    generalize wrapInt64 (n * 2 ^ 8) = n1 at h1 h2 ⊢
    cases lead <;> simp [h1, h2]

theorem setint64Payload_eq (n : Int) (hlo : -2 ^ 63 ≤ n) (hhi : n < 2 ^ 63) :
    setint64Payload n = mpiPayload n := by
  have hu : n.natAbs < 256 ^ 8 ∨ n = -2 ^ 63 := by omega
  unfold setint64Payload negateInt64
  have key : ∀ m : Int, -2 ^ 63 ≤ m → m < 2 ^ 63 → m % 2 ^ 64 = ((n.natAbs % 2 ^ 64 : Nat) : Int) →
      setint64Loop (decide (n < 0)) 8 m true [] = mpiPayload n := by
    intro m h1 h2 h3
    rw [setint64Loop_eq (decide (n < 0)) true 8 le_rfl n.natAbs m [] h1 h2 (by
      simp only [Nat.sub_self, pow_zero, Nat.mul_one]
      norm_num at h3 ⊢
      exact h3)]
    rcases hu with hu | hu
    · rw [emitBytes_bigEndian _ 8 _ hu]
      rfl
    · subst hu
      decide
  by_cases hneg : n < 0
  · rw [if_pos hneg]
    apply key
    · unfold wrapInt64; omega
    · unfold wrapInt64; omega
    · unfold wrapInt64; omega
  · rw [if_neg hneg]
    apply key _ hlo hhi
    omega

theorem setuint256Loop_eq (mem : List Nat) (lead : Bool) : ∀ psrc, psrc ≤ mem.length →
    ∀ p, setuint256Loop mem psrc lead p = emitBytes false (mem.take psrc).reverse lead p := by
  intro psrc
  induction psrc generalizing lead with
  | zero => intro _ p; simp [setuint256Loop, emitBytes]
  | succ k ih =>
    intro hk p
    have hlt : k < mem.length := by omega
    have ht : (mem.take (k + 1)).reverse = mem.getD k 0 :: (mem.take k).reverse := by
      rw [List.take_succ, List.reverse_append]
      simp [List.getD, List.getElem?_eq_getElem hlt]
    rw [ht]
    simp only [setuint256Loop, emitBytes]
    have h1 := fun p => ih true (by omega) p
    have h2 := fun p => ih false (by omega) p
    cases lead <;> simp [h1, h2]

theorem setuint256Payload_eq (n : Nat) (h : n < 2 ^ 256) :
    setuint256Payload n = mpiPayload n := by
  unfold setuint256Payload uint256Mem
  rw [setuint256Loop_eq _ true 32 (by simp [length_bigEndian])]
  have e : ((bigEndian 32 n).reverse.take 32).reverse = bigEndian 32 n := by
    rw [List.take_of_length_le (by simp [length_bigEndian]), List.reverse_reverse]
  rw [e, emitBytes_bigEndian false 32 n (by norm_num; omega)]
  have hneg : ¬ ((n : Int) < 0) := by omega
  simp [mpiPayload, BN_bn2bin_eq, hneg]

/-! ## Setters hand `BN_mpi2bn` the encoding of their argument -/

theorem signPad_lt (neg : Bool) (bs : List Nat) (hb : ∀ b ∈ bs, b < 256) :
    ∀ b ∈ signPad neg bs, b < 256 := by
  cases bs with
  | nil => simp [signPad]
  | cons c rest =>
    have hc : c < 256 := hb c (List.mem_cons_self _ _)
    have hr : ∀ b ∈ rest, b < 256 := fun b h => hb b (List.mem_cons_of_mem _ h)
    simp only [signPad]
    by_cases hs : 128 ≤ c
    · rw [if_pos ((and_80_ne_zero c hc).2 hs)]
      intro b hmem
      rcases List.mem_cons.1 hmem with h | h
      · subst h; cases neg <;> simp
      · exact hb b h
    · rw [if_neg (fun h => hs ((and_80_ne_zero c hc).1 h))]
      intro b hmem
      rcases List.mem_cons.1 hmem with h | h
      · subst h
        cases neg
        · simpa using hc
        · simp only [if_true]; rw [or_80 c (by omega)]; omega
      · exact hr b h

theorem mpiPayload_lt (a : Int) : ∀ b ∈ mpiPayload a, b < 256 :=
  signPad_lt _ _ (BN_bn2bin_lt a)

theorem mpiPayload_length_le (a : Int) : (mpiPayload a).length ≤ nbytes a.natAbs + 1 := by
  have := signPad_length_le (decide (a < 0)) (BN_bn2bin a)
  rw [BN_bn2bin_eq, length_bigEndian] at this
  exact this

theorem mpiPayload_length_le_of_lt (a : Int) (k : Nat) (h : a.natAbs < 256 ^ k) :
    (mpiPayload a).length ≤ k + 1 := by
  have h1 := mpiPayload_length_le a
  have h2 := (nbytes_le_iff a.natAbs k).2 h
  omega

theorem wrapInt32_of_lt (l : Nat) (h : l < 2 ^ 31) : wrapInt32 l = l := by
  unfold wrapInt32; omega

/-- A setter that builds the encoding of `a` leaves the object equal to `a`. -/
theorem mpi2bnInto_payload (self a : Int) (h : (mpiPayload a).length < 2 ^ 31) :
    mpi2bnInto self (sizeHeader (mpiPayload a).length ++ mpiPayload a)
      ((sizeHeader (mpiPayload a).length ++ mpiPayload a).length : Nat) = a := by
  have e : (((sizeHeader (mpiPayload a).length ++ mpiPayload a).length : Nat) : Int)
      = ((mpiPayload a).length : Int) + 4 := by
    rw [List.length_append, sizeHeader_length]; push_cast; ring
  unfold mpi2bnInto
  rw [e, mpi2bn_wellformed _ h, decodePayload_mpiPayload]

theorem setint64_eq (self n : Int) (hlo : -2 ^ 63 ≤ n) (hhi : n < 2 ^ 63) :
    setint64 self n = n := by
  unfold setint64 setint64Buf
  simp only [setint64Payload_eq n hlo hhi]
  apply mpi2bnInto_payload
  have := mpiPayload_length_le_of_lt n 9 (by norm_num; omega)
  omega

theorem setuint64_eq (self : Int) (n : Nat) (h : n < 2 ^ 64) : setuint64 self n = n := by
  unfold setuint64 setuint64Buf
  simp only [setuint64Payload_eq n h]
  apply mpi2bnInto_payload
  have := mpiPayload_length_le_of_lt n 8 (by norm_num; omega)
  omega

theorem setuint256_eq (self : Int) (n : Nat) (h : n < 2 ^ 256) : setuint256 self n = n := by
  unfold setuint256 setuint256Buf
  simp only [setuint256Payload_eq n h]
  apply mpi2bnInto_payload
  have := mpiPayload_length_le_of_lt n 32 (by norm_num; omega)
  omega

/-! ## `getint` -/

theorem getint_eq (v : Int) :
    getint v = if INT_MAX < v then INT_MAX else if v < INT_MIN then INT_MIN else v := by
  unfold getint BN_get_word wrapInt32 INT_MAX INT_MIN
  dsimp only
  split_ifs <;> omega

/-! ## `getuint256` -/

theorem maskHead_length (p : List Nat) : (maskHead p).length = p.length := by
  cases p <;> simp [maskHead]

theorem bin2bn_zero_cons (s : List Nat) : BN_bin2bn (0 :: s) = BN_bin2bn s := by
  rw [bin2bn_cons]; simp

theorem bin2bn_maskHead_signPad (neg : Bool) (bs : List Nat) (hb : ∀ b ∈ bs, b < 256) :
    BN_bin2bn (maskHead (signPad neg bs)) = BN_bin2bn bs := by
  cases bs with
  | nil => rfl
  | cons c rest =>
    have hc : c < 256 := hb c (List.mem_cons_self _ _)
    simp only [signPad]
    by_cases hs : 128 ≤ c
    · rw [if_pos ((and_80_ne_zero c hc).2 hs)]
      cases neg
      · simp only [Bool.false_eq_true, if_false, maskHead]
        exact bin2bn_zero_cons _
      · simp only [if_true, maskHead]
        exact bin2bn_zero_cons _
    · rw [if_neg (fun h => hs ((and_80_ne_zero c hc).1 h))]
      cases neg
      · simp only [Bool.false_eq_true, if_false, maskHead]
        rw [and_7f c hc, Nat.mod_eq_of_lt (by omega)]
      · simp only [if_true, maskHead]
        rw [or_80 c (by omega), and_7f _ (by omega)]
        have : (c + 128) % 128 = c := by omega
        rw [this]

theorem bin2bn_maskHead_mpiPayload (a : Int) :
    BN_bin2bn (maskHead (mpiPayload a)) = a.natAbs := by
  unfold mpiPayload
  rw [bin2bn_maskHead_signPad _ _ (BN_bn2bin_lt a), bin2bn_bn2bin]

theorem maskHead_lt (p : List Nat) (hp : ∀ b ∈ p, b < 256) : ∀ b ∈ maskHead p, b < 256 := by
  cases p with
  | nil => simp [maskHead]
  | cons c rest =>
    intro b hmem
    simp only [maskHead] at hmem
    rcases List.mem_cons.1 hmem with h | h
    · subst h
      rw [and_7f c (hp c (List.mem_cons_self _ _))]; omega
    · exact hp b (List.mem_cons_of_mem _ h)

/-- The copy loop fills the object representation with the low-order bytes of
the payload, least significant first. -/
theorem getuint256Loop_eq (hdr q : List Nat) (hh : hdr.length = 4) :
    ∀ k i, i + k = 32 → i ≤ q.length →
      getuint256Loop (hdr ++ q.reverse) k i ((q.length : Int) + 3 - i)
          (q.take i ++ List.replicate (32 - i) 0)
        = q.take (min 32 q.length) ++ List.replicate (32 - min 32 q.length) 0 := by
  intro k
  induction k with
  | zero =>
    intro i hi hq
    have : i = 32 := by omega
    subst this
    simp only [getuint256Loop]
    rw [Nat.min_eq_left hq]
  | succ k ih =>
    intro i hi hq
    simp only [getuint256Loop]
    by_cases hlt : i < q.length
    · rw [if_pos (by omega)]
      have hj : ((q.length : Int) + 3 - i).toNat = 4 + (q.length - 1 - i) := by omega
      have hget : (hdr ++ q.reverse).getD (4 + (q.length - 1 - i)) 0 = q.getD i 0 := by
        rw [List.getD_eq_getElem?_getD, List.getD_eq_getElem?_getD,
          List.getElem?_append_right (by omega), hh, Nat.add_sub_cancel_left,
          List.getElem?_reverse (by omega)]
        congr 2
        omega
      have hset : (q.take i ++ List.replicate (32 - i) 0).set i (q.getD i 0)
          = q.take (i + 1) ++ List.replicate (32 - (i + 1)) 0 := by
        have hl : (q.take i).length = i := by rw [List.length_take]; omega
        have hr : 32 - i = (32 - (i + 1)) + 1 := by omega
        rw [hr, List.replicate_succ, List.set_append_right _ _ (by omega), hl, Nat.sub_self,
          List.set_cons_zero]
        conv_rhs => rw [List.take_succ]
        simp only [List.getD_eq_getElem?_getD, List.getElem?_eq_getElem hlt, Option.getD_some,
          Option.toList, List.append_assoc, List.singleton_append]
      rw [hj, hget, hset]
      have := ih (i + 1) (by omega) (by omega)
      rw [← this]
      congr 1
      push_cast; ring
    · have : i = q.length := by omega
      rw [if_neg (by omega)]
      subst this
      rw [Nat.min_eq_right (by omega)]

theorem bin2bn_replicate_zero (n : Nat) (s : List Nat) :
    BN_bin2bn (List.replicate n 0 ++ s) = BN_bin2bn s := by
  induction n with
  | zero => rfl
  | succ n ih => rw [List.replicate_succ, List.cons_append, bin2bn_zero_cons, ih]

theorem bin2bn_drop (p : List Nat) (hp : ∀ b ∈ p, b < 256) (k : Nat) (hk : k ≤ p.length) :
    BN_bin2bn (p.drop (p.length - k)) = BN_bin2bn p % 256 ^ k := by
  have h1 : BN_bin2bn p = BN_bin2bn (p.take (p.length - k)) * 256 ^ k
      + BN_bin2bn (p.drop (p.length - k)) := by
    conv_lhs => rw [← List.take_append_drop (p.length - k) p]
    rw [bin2bn_append, List.length_drop]
    congr 3
    omega
  have h2 : BN_bin2bn (p.drop (p.length - k)) < 256 ^ k := by
    have := bin2bn_lt (p.drop (p.length - k)) (fun b hb => hp b (List.mem_of_mem_drop hb))
    rw [List.length_drop] at this
    have e : p.length - (p.length - k) = k := by omega
    rwa [e] at this
  rw [h1, Nat.mul_add_mod_of_lt h2]

theorem getuint256Loop_val (l : Nat) (p : List Nat) (hp : ∀ b ∈ p, b < 256) :
    uint256Val (getuint256Loop (sizeHeader l ++ p) 32 0
        (((sizeHeader l ++ p).length : Nat) - 1) (List.replicate 32 0))
      = BN_bin2bn p % 256 ^ (min 32 p.length) := by
  obtain ⟨q, rfl⟩ : ∃ q, p = q.reverse := ⟨p.reverse, (List.reverse_reverse p).symm⟩
  have hloop := getuint256Loop_eq (sizeHeader l) q (sizeHeader_length _)
    32 0 (by norm_num) (Nat.zero_le _)
  simp only [List.take_zero, List.nil_append, Nat.sub_zero, Nat.cast_zero, sub_zero] at hloop
  have hj : (((sizeHeader l ++ q.reverse).length : Nat) : Int) - 1 = (q.length : Int) + 3 := by
    rw [List.length_append, sizeHeader_length, List.length_reverse]; push_cast; ring
  rw [hj, hloop]
  unfold uint256Val
  rw [List.reverse_append, List.reverse_replicate, bin2bn_replicate_zero]
  have hrev : (q.take (min 32 q.length)).reverse
      = q.reverse.drop (q.reverse.length - min 32 q.length) := by
    rw [List.length_reverse, List.reverse_take]
  rw [hrev, List.length_reverse]
  have := bin2bn_drop q.reverse hp (min 32 q.length)
    (by rw [List.length_reverse]; exact Nat.min_le_right _ _)
  rw [List.length_reverse] at this
  exact this

theorem getuint256_eq (v : Int) : getuint256 v = v.natAbs % 2 ^ 256 := by
  unfold getuint256
  have hlen := BN_bn2mpi_length v
  rw [if_neg (by omega)]
  have hvch : (if (BN_bn2mpi v).length > 4 then
        (BN_bn2mpi v).set 4 ((BN_bn2mpi v).getD 4 0 &&& 0x7f) else BN_bn2mpi v)
      = sizeHeader (mpiPayload v).length ++ maskHead (mpiPayload v) := by
    rw [hlen, BN_bn2mpi_eq]
    cases hp : mpiPayload v with
    | nil => simp [maskHead]
    | cons c rest => simp [maskHead, sizeHeader]
  simp only [hvch]
  rw [getuint256Loop_val _ _ (maskHead_lt _ (mpiPayload_lt v)), bin2bn_maskHead_mpiPayload,
    maskHead_length]
  have hv : v.natAbs < 256 ^ (mpiPayload v).length := by
    have := bin2bn_lt _ (maskHead_lt _ (mpiPayload_lt v))
    rwa [bin2bn_maskHead_mpiPayload, maskHead_length] at this
  by_cases h32 : 32 ≤ (mpiPayload v).length
  · rw [Nat.min_eq_left h32]; norm_num
  · rw [Nat.min_eq_right (by omega), Nat.mod_eq_of_lt hv]
    have : (256 : Nat) ^ (mpiPayload v).length ≤ 256 ^ 32 :=
      Nat.pow_le_pow_right (by norm_num) (by omega)
    rw [Nat.mod_eq_of_lt]
    have e : (2 : Nat) ^ 256 = 256 ^ 32 := by norm_num
    omega

/-! ## `setvch` and `getvch` -/

theorem getvch_eq (v : Int) : getvch v = (mpiPayload v).reverse := by
  unfold getvch
  have hlen := BN_bn2mpi_length v
  rw [if_neg (by omega), BN_bn2mpi_eq]
  simp [sizeHeader]

theorem setvch_reverse_mpiPayload (self v : Int) (h : (BN_bn2mpi v).length < 2 ^ 31) :
    setvch self (mpiPayload v).reverse = v := by
  have hlen := BN_bn2mpi_length v
  have hL : (mpiPayload v).length < 2 ^ 31 := by omega
  unfold setvch
  simp only [List.length_reverse, List.reverse_reverse]
  rw [Nat.mod_eq_of_lt (by omega)]
  have hw : wrapInt32 ((sizeHeader (mpiPayload v).length ++ mpiPayload v).length : Nat)
      = ((sizeHeader (mpiPayload v).length ++ mpiPayload v).length : Nat) := by
    apply wrapInt32_of_lt
    rw [List.length_append, sizeHeader_length]; omega
  rw [hw]
  exact mpi2bnInto_payload self v hL

/-! ## Natural byte strings -/

theorem nbytes_succ (m : Nat) (hm : m ≠ 0) : nbytes m = nbytes (m / 256) + 1 := by
  have hpos : 0 < nbytes m := (lt_nbytes_iff m 0).2 (by simpa using Nat.pos_of_ne_zero hm)
  have h1 : nbytes (m / 256) ≤ nbytes m - 1 := by
    rw [nbytes_le_iff]
    have := lt_pow_nbytes m
    have e : nbytes m = (nbytes m - 1) + 1 := by omega
    rw [e, pow_succ] at this
    omega
  have h2 : nbytes m ≤ nbytes (m / 256) + 1 := by
    rw [nbytes_le_iff, pow_succ]
    have := lt_pow_nbytes (m / 256)
    omega
  omega

theorem bigEndian_nbytes_eq_digits (m : Nat) : bigEndian (nbytes m) m = naturalBytes m := by
  induction m using Nat.strong_induction_on with
  | _ m ih =>
    by_cases hm : m = 0
    · subst hm; simp [naturalBytes, nbytes_zero, bigEndian]
    · rw [nbytes_succ m hm, bigEndian, ih (m / 256) (by omega)]
      unfold naturalBytes
      conv_rhs => rw [Nat.digits_def' (by norm_num : 1 < 256) (Nat.pos_of_ne_zero hm)]
      simp

theorem BN_bn2bin_eq_naturalBytes (a : Int) : BN_bn2bin a = naturalBytes a.natAbs := by
  rw [BN_bn2bin_eq, bigEndian_nbytes_eq_digits]

theorem mpiPayload_eq (a : Int) :
    mpiPayload a = signPad (decide (a < 0)) (naturalBytes a.natAbs) := by
  unfold mpiPayload
  rw [BN_bn2bin_eq_naturalBytes]

theorem naturalBytes_lt (m : Nat) : ∀ b ∈ naturalBytes m, b < 256 := by
  rw [← bigEndian_nbytes_eq_digits]
  exact bigEndian_lt _ _

theorem sizeHeader_small (l : Nat) (h : l < 256) : sizeHeader l = [0, 0, 0, l] := by
  unfold sizeHeader
  simp only [and_ff, Nat.shiftRight_eq_div_pow]
  have h1 : l / 2 ^ 24 % 256 = 0 := by omega
  have h2 : l / 2 ^ 16 % 256 = 0 := by omega
  have h3 : l / 2 ^ 8 % 256 = 0 := by omega
  have h4 : l % 256 = l := by omega
  rw [h1, h2, h3, h4]

/-! ## Shape of the payload -/

theorem signPad_high (neg : Bool) (bs : List Nat) (hb : ∀ b ∈ bs, b < 256)
    (h : 128 ≤ bs.headD 0) : signPad neg bs = (if neg then 0x80 else 0) :: bs := by
  cases bs with
  | nil => simp at h
  | cons c rest =>
    have hc : c < 256 := hb c (List.mem_cons_self _ _)
    simp only [List.headD_cons] at h
    simp only [signPad]
    rw [if_pos ((and_80_ne_zero c hc).2 h)]

theorem signPad_low (neg : Bool) (bs : List Nat) (hb : ∀ b ∈ bs, b < 256)
    (h : bs.headD 0 < 128) (hne : neg = true → bs ≠ []) :
    signPad neg bs = if neg then (bs.headD 0 + 128) :: bs.tail else bs := by
  cases bs with
  | nil => cases neg <;> simp_all [signPad]
  | cons c rest =>
    have hc : c < 256 := hb c (List.mem_cons_self _ _)
    simp only [List.headD_cons] at h
    simp only [signPad]
    rw [if_neg (fun hs => by have := (and_80_ne_zero c hc).1 hs; omega)]
    cases neg
    · simp
    · simp [or_80 c h]

theorem naturalBytes_length (m : Nat) : (naturalBytes m).length = nbytes m := by
  rw [← bigEndian_nbytes_eq_digits, length_bigEndian]

theorem naturalBytes_ne_nil (m : Nat) (hm : m ≠ 0) : naturalBytes m ≠ [] := by
  intro h
  have := naturalBytes_length m
  rw [h] at this
  have hpos : 0 < nbytes m := (lt_nbytes_iff m 0).2 (by simpa using Nat.pos_of_ne_zero hm)
  simp at this
  omega

/-- The buffer a setter builds from the value `a`, by the high bit of the
leading natural byte. -/
theorem setterBuf_shape (a : Int) (k : Nat) (hk : k < 255) (ha : a.natAbs < 256 ^ k) :
    (128 ≤ (naturalBytes a.natAbs).headD 0 →
      sizeHeader (mpiPayload a).length ++ mpiPayload a
        = [0, 0, 0, (naturalBytes a.natAbs).length + 1]
          ++ (if a < 0 then 0x80 else 0) :: naturalBytes a.natAbs) ∧
    ((naturalBytes a.natAbs).headD 0 < 128 →
      sizeHeader (mpiPayload a).length ++ mpiPayload a
        = [0, 0, 0, (naturalBytes a.natAbs).length]
          ++ (if a < 0 then ((naturalBytes a.natAbs).headD 0 + 128) :: (naturalBytes a.natAbs).tail
              else naturalBytes a.natAbs)) := by
  have hlen : (naturalBytes a.natAbs).length ≤ k := by
    rw [naturalBytes_length]; exact (nbytes_le_iff _ _).2 ha
  constructor
  · intro h
    have e := signPad_high (decide (a < 0)) _ (naturalBytes_lt a.natAbs) h
    rw [mpiPayload_eq, e, List.length_cons, sizeHeader_small _ (by omega)]
    by_cases hneg : a < 0 <;> simp [hneg]
  · intro h
    have e := signPad_low (decide (a < 0)) _ (naturalBytes_lt a.natAbs) h (by
      intro hneg
      apply naturalBytes_ne_nil
      have : a < 0 := by simpa using hneg
      omega)
    rw [mpiPayload_eq, e]
    by_cases hneg : a < 0
    · have hne : naturalBytes a.natAbs ≠ [] := naturalBytes_ne_nil _ (by omega)
      have hl : (((naturalBytes a.natAbs).headD 0 + 128) :: (naturalBytes a.natAbs).tail).length
          = (naturalBytes a.natAbs).length := by
        cases hnb : naturalBytes a.natAbs with
        | nil => exact absurd hnb hne
        | cons c rest => simp
      simp only [hneg, decide_True, if_true]
      rw [hl, sizeHeader_small _ (by omega)]
    · simp only [hneg, decide_False, Bool.false_eq_true, if_false]
      rw [sizeHeader_small _ (by omega)]

/-! ## The compact codec -/

theorem drop_four_bn2mpi (v : Int) : (BN_bn2mpi v).drop 4 = mpiPayload v := by
  rw [BN_bn2mpi_eq]; simp [sizeHeader]

theorem getD_bn2mpi (v : Int) (i : Nat) : (BN_bn2mpi v).getD (4 + i) 0 = (mpiPayload v).getD i 0 := by
  rw [BN_bn2mpi_eq]
  simp only [List.getD_eq_getElem?_getD]
  rw [List.getElem?_append_right (by rw [sizeHeader_length]; omega), sizeHeader_length,
    Nat.add_sub_cancel_left]

theorem getD_lt (p : List Nat) (hp : ∀ b ∈ p, b < 256) (i : Nat) : p.getD i 0 < 256 := by
  rw [List.getD_eq_getElem?_getD]
  by_cases h : i < p.length
  · rw [List.getElem?_eq_getElem h]
    exact hp _ (List.getElem_mem _)
  · rw [List.getElem?_eq_none (by omega)]
    simp

theorem getD_of_le (p : List Nat) (i : Nat) (h : p.length ≤ i) : p.getD i 0 = 0 := by
  rw [List.getD_eq_getElem?_getD, List.getElem?_eq_none h]
  rfl

theorem GetCompact_eq (v : Int) (h : (mpiPayload v).length ≤ 255) :
    GetCompact v = (mpiPayload v).length * 2 ^ 24 + (mpiPayload v).getD 0 0 * 2 ^ 16
      + (mpiPayload v).getD 1 0 * 2 ^ 8 + (mpiPayload v).getD 2 0 := by
  have hlen := BN_bn2mpi_length v
  have g0 := getD_bn2mpi v 0
  have g1 := getD_bn2mpi v 1
  have g2 := getD_bn2mpi v 2
  have l0 := getD_lt _ (mpiPayload_lt v) 0
  have l1 := getD_lt _ (mpiPayload_lt v) 1
  have l2 := getD_lt _ (mpiPayload_lt v) 2
  simp only [Nat.add_zero, Nat.reduceAdd] at g0 g1 g2
  unfold GetCompact
  simp only [hlen, Nat.add_sub_cancel, g0, g1, g2]
  have hs : ((mpiPayload v).length <<< 24) % 2 ^ 32 = (mpiPayload v).length <<< 24 := by
    rw [Nat.shiftLeft_eq]; omega
  rw [hs]
  have e0 : (if (mpiPayload v).length ≥ 1 then
        (mpiPayload v).length <<< 24 ||| (mpiPayload v).getD 0 0 <<< 16
      else (mpiPayload v).length <<< 24)
      = (mpiPayload v).length <<< 24 ||| (mpiPayload v).getD 0 0 <<< 16 := by
    split_ifs with hc
    · rfl
    · rw [getD_of_le _ _ (by omega)]; simp
  rw [e0]
  have e1 : (if (mpiPayload v).length ≥ 2 then
        (mpiPayload v).length <<< 24 ||| (mpiPayload v).getD 0 0 <<< 16
          ||| (mpiPayload v).getD 1 0 <<< 8
      else (mpiPayload v).length <<< 24 ||| (mpiPayload v).getD 0 0 <<< 16)
      = (mpiPayload v).length <<< 24 ||| (mpiPayload v).getD 0 0 <<< 16
          ||| (mpiPayload v).getD 1 0 <<< 8 := by
    split_ifs with hc
    · rfl
    · rw [getD_of_le _ 1 (by omega)]; simp
  rw [e1]
  have e2 : (if (mpiPayload v).length ≥ 3 then
        (mpiPayload v).length <<< 24 ||| (mpiPayload v).getD 0 0 <<< 16
          ||| (mpiPayload v).getD 1 0 <<< 8 ||| (mpiPayload v).getD 2 0 <<< 0
      else (mpiPayload v).length <<< 24 ||| (mpiPayload v).getD 0 0 <<< 16
          ||| (mpiPayload v).getD 1 0 <<< 8)
      = (mpiPayload v).length <<< 24 ||| (mpiPayload v).getD 0 0 <<< 16
          ||| (mpiPayload v).getD 1 0 <<< 8 ||| (mpiPayload v).getD 2 0 := by
    split_ifs with hc
    · simp
    · rw [getD_of_le _ 2 (by omega)]; simp
  rw [e2, or_bytes _ _ _ _ l0 l1 l2]

theorem SetCompact_small (self : Int) (p : List Nat) (hp : ∀ b ∈ p, b < 256)
    (hL : p.length ≤ 3) :
    SetCompact self (p.length * 2 ^ 24 + p.getD 0 0 * 2 ^ 16 + p.getD 1 0 * 2 ^ 8 + p.getD 2 0)
      = mpi2bnInto self (sizeHeader p.length ++ p) ((p.length : Int) + 4) := by
  match p, hp, hL with
  | [], _, _ =>
    have hw : wrapInt32 ((4 : Nat) : Int) = ((0 : Nat) : Int) + 4 := by
      rw [wrapInt32_of_lt 4 (by norm_num)]; rfl
    simp only [List.length_nil, List.getD_nil]
    unfold SetCompact
    simp only [Nat.zero_mul, Nat.add_zero, Nat.zero_shiftRight, ge_iff_le, Nat.reduceLeDiff,
      if_false, List.replicate, List.set_cons_succ, List.set_cons_zero, List.length_cons,
      List.length_nil, Nat.reduceMod, Nat.reduceAdd, sizeHeader_small 0 (by norm_num), hw]
    rfl
  | [a], hp, _ =>
    have ha : a < 256 := hp a (by simp)
    have hn : (1 * 2 ^ 24 + a * 2 ^ 16 + 0 * 2 ^ 8 + 0) >>> 24 = 1 := by
      rw [Nat.shiftRight_eq_div_pow]; omega
    have h16 : ((1 * 2 ^ 24 + a * 2 ^ 16 + 0 * 2 ^ 8 + 0) >>> 16) &&& 0xff = a := by
      rw [and_ff, Nat.shiftRight_eq_div_pow]; omega
    have hw : wrapInt32 ((5 : Nat) : Int) = ((1 : Nat) : Int) + 4 := by
      rw [wrapInt32_of_lt 5 (by norm_num)]; rfl
    simp only [List.length_singleton, List.getD_cons_zero, List.getD_cons_succ, List.getD_nil]
    unfold SetCompact
    simp only [hn, h16, ge_iff_le, le_refl, if_true, Nat.reduceLeDiff, if_false, Nat.reduceAdd,
      List.replicate, List.set_cons_succ, List.set_cons_zero, List.length_cons, List.length_nil,
      Nat.reduceMod, sizeHeader_small 1 (by norm_num), hw]
    rfl
  | [a, b], hp, _ =>
    have ha : a < 256 := hp a (by simp)
    have hb : b < 256 := hp b (by simp)
    have hn : (2 * 2 ^ 24 + a * 2 ^ 16 + b * 2 ^ 8 + 0) >>> 24 = 2 := by
      rw [Nat.shiftRight_eq_div_pow]; omega
    have h16 : ((2 * 2 ^ 24 + a * 2 ^ 16 + b * 2 ^ 8 + 0) >>> 16) &&& 0xff = a := by
      rw [and_ff, Nat.shiftRight_eq_div_pow]; omega
    have h8 : ((2 * 2 ^ 24 + a * 2 ^ 16 + b * 2 ^ 8 + 0) >>> 8) &&& 0xff = b := by
      rw [and_ff, Nat.shiftRight_eq_div_pow]; omega
    have hw : wrapInt32 ((6 : Nat) : Int) = ((2 : Nat) : Int) + 4 := by
      rw [wrapInt32_of_lt 6 (by norm_num)]; rfl
    simp only [List.length_cons, List.length_nil, List.getD_cons_zero, List.getD_cons_succ,
      List.getD_nil, Nat.reduceAdd]
    unfold SetCompact
    simp only [hn, h16, h8, ge_iff_le, le_refl, if_true, Nat.reduceLeDiff, if_false,
      Nat.reduceAdd, List.replicate, List.set_cons_succ, List.set_cons_zero, List.length_cons,
      List.length_nil, Nat.reduceMod, sizeHeader_small 2 (by norm_num), hw]
    rfl
  | [a, b, c], hp, _ =>
    have ha : a < 256 := hp a (by simp)
    have hb : b < 256 := hp b (by simp)
    have hc : c < 256 := hp c (by simp)
    have hn : (3 * 2 ^ 24 + a * 2 ^ 16 + b * 2 ^ 8 + c) >>> 24 = 3 := by
      rw [Nat.shiftRight_eq_div_pow]; omega
    have h16 : ((3 * 2 ^ 24 + a * 2 ^ 16 + b * 2 ^ 8 + c) >>> 16) &&& 0xff = a := by
      rw [and_ff, Nat.shiftRight_eq_div_pow]; omega
    have h8 : ((3 * 2 ^ 24 + a * 2 ^ 16 + b * 2 ^ 8 + c) >>> 8) &&& 0xff = b := by
      rw [and_ff, Nat.shiftRight_eq_div_pow]; omega
    have h0 : ((3 * 2 ^ 24 + a * 2 ^ 16 + b * 2 ^ 8 + c) >>> 0) &&& 0xff = c := by
      rw [and_ff, Nat.shiftRight_eq_div_pow]; omega
    have hw : wrapInt32 ((7 : Nat) : Int) = ((3 : Nat) : Int) + 4 := by
      rw [wrapInt32_of_lt 7 (by norm_num)]; rfl
    simp only [List.length_cons, List.length_nil, List.getD_cons_zero, List.getD_cons_succ,
      Nat.reduceAdd]
    unfold SetCompact
    simp only [hn, h16, h8, h0, ge_iff_le, le_refl, if_true, Nat.reduceLeDiff, if_false,
      Nat.reduceAdd, List.replicate, List.set_cons_succ, List.set_cons_zero, List.length_cons,
      List.length_nil, Nat.reduceMod, sizeHeader_small 3 (by norm_num), hw]
    rfl
  | _ :: _ :: _ :: _ :: _, _, hL => simp at hL

theorem SetCompact_GetCompact (self v : Int) (h : (mpiPayload v).length ≤ 3) :
    SetCompact self (GetCompact v) = v := by
  rw [GetCompact_eq v (by omega), SetCompact_small self _ (mpiPayload_lt v) h]
  unfold mpi2bnInto
  rw [mpi2bn_wellformed _ (by omega), decodePayload_mpiPayload]

theorem bin2bn_signPad_false (bs : List Nat) (hb : ∀ b ∈ bs, b < 256) :
    BN_bin2bn (signPad false bs) = BN_bin2bn bs := by
  cases bs with
  | nil => rfl
  | cons c rest =>
    simp only [signPad, Bool.false_eq_true, if_false]
    split_ifs
    · exact bin2bn_zero_cons _
    · rfl

theorem bin2bn_mpiPayload_nonneg (v : Int) (hv : 0 ≤ v) : BN_bin2bn (mpiPayload v) = v.toNat := by
  unfold mpiPayload
  have : ¬ v < 0 := by omega
  simp only [this, decide_False]
  rw [bin2bn_signPad_false _ (BN_bn2bin_lt v), bin2bn_bn2bin]
  omega

theorem mantissa_eq_div (p : List Nat) (hp : ∀ b ∈ p, b < 256) (h3 : 3 ≤ p.length) :
    p.getD 0 0 * 2 ^ 16 + p.getD 1 0 * 2 ^ 8 + p.getD 2 0 = BN_bin2bn p / 256 ^ (p.length - 3) := by
  match p, hp, h3 with
  | a :: b :: c :: rest, hp, _ =>
    have hr := bin2bn_lt rest (fun x hx => hp x (by simp [hx]))
    have e : BN_bin2bn (a :: b :: c :: rest)
        = (a * 2 ^ 16 + b * 2 ^ 8 + c) * 256 ^ rest.length + BN_bin2bn rest := by
      have := bin2bn_append [a, b, c] rest
      simp only [List.cons_append, List.nil_append] at this
      rw [this]
      simp only [BN_bin2bn, List.foldl_cons, List.foldl_nil]
      ring
    have hl : (a :: b :: c :: rest).length - 3 = rest.length := by simp
    simp only [List.getD_cons_zero, List.getD_cons_succ]
    rw [e, hl]
    generalize a * 2 ^ 16 + b * 2 ^ 8 + c = X
    generalize 256 ^ rest.length = N at hr
    symm
    apply Nat.div_eq_of_lt_le
    · exact Nat.le_add_right _ _
    · rw [Nat.add_mul, Nat.one_mul]; omega
  | [], _, h3 => simp at h3
  | [_], _, h3 => simp at h3
  | [_, _], _, h3 => simp at h3

theorem GetCompact_nonneg (v : Int) (h : (mpiPayload v).length ≤ 255) (hv : 0 ≤ v)
    (h3 : 3 ≤ (mpiPayload v).length) :
    GetCompact v = (mpiPayload v).length * 2 ^ 24 + v.toNat / 256 ^ ((mpiPayload v).length - 3) := by
  rw [GetCompact_eq v h, ← bin2bn_mpiPayload_nonneg v hv,
    ← mantissa_eq_div _ (mpiPayload_lt v) h3]
  ring

theorem shiftLeft_or_mantissa (l m : Nat) (hm : m < 2 ^ 24) : (l <<< 24) ||| m = l * 2 ^ 24 + m := by
  rw [Nat.shiftLeft_eq, Nat.mul_comm, ← Nat.mul_add_lt_is_or hm]

/-! ## The claims -/

/-- Claim C1: for every signed 64-bit `n`, `setint64` leaves the object holding
the integer `n`, whatever it held before: the magnitude is `|n|` and the value
is negative exactly when `n` is. -/
theorem setint64_holds_value (self n : Int) (hlo : -2 ^ 63 ≤ n) (hhi : n < 2 ^ 63) :
    setint64 self n = n ∧ (setint64 self n).natAbs = n.natAbs ∧
      (setint64 self n < 0 ↔ n < 0) := by
  rw [setint64_eq self n hlo hhi]
  exact ⟨rfl, rfl, Iff.rfl⟩

theorem setint64_holds_value_witness :
    (-2 ^ 63 ≤ (-2 ^ 63 : Int) ∧ (-2 ^ 63 : Int) < 2 ^ 63) ∧
      (setint64 7 (-2 ^ 63) = -2 ^ 63 ∧ (setint64 7 (-2 ^ 63)).natAbs = (-2 ^ 63 : Int).natAbs ∧
        (setint64 7 (-2 ^ 63) < 0 ↔ (-2 ^ 63 : Int) < 0)) :=
  ⟨⟨by norm_num, by norm_num⟩, setint64_holds_value 7 (-2 ^ 63) (by norm_num) (by norm_num)⟩

/-- Claim C2: decoding the little-endian encoding gives the value back,
`setvch (getvch v) = v`, for every value whose encoded length fits the `int`
in which `BN_bn2mpi` reports it. -/
theorem setvch_getvch_roundtrip (self v : Int) (h : (BN_bn2mpi v).length < 2 ^ 31) :
    setvch self (getvch v) = v := by
  rw [getvch_eq]
  exact setvch_reverse_mpiPayload self v h

theorem setvch_getvch_roundtrip_witness :
    (BN_bn2mpi (-128)).length < 2 ^ 31 ∧ setvch 7 (getvch (-128)) = -128 :=
  ⟨by decide, setvch_getvch_roundtrip 7 (-128) (by decide)⟩

/-- Claim C3: `getuint256` inverts the unsigned setters: after `setuint256 n`
with `n < 2^256` it returns `n`, and after `setuint64 m` with `m < 2^64` it
returns `m`. -/
theorem getuint256_inverts_unsigned_setters (self : Int) (n m : Nat)
    (hn : n < 2 ^ 256) (hm : m < 2 ^ 64) :
    getuint256 (setuint256 self n) = n ∧ getuint256 (setuint64 self m) = m := by
  rw [setuint256_eq self n hn, setuint64_eq self m hm, getuint256_eq, getuint256_eq]
  simp only [Int.natAbs_ofNat]
  exact ⟨Nat.mod_eq_of_lt hn, Nat.mod_eq_of_lt (by omega)⟩

theorem getuint256_inverts_unsigned_setters_witness :
    ((2 ^ 256 - 1 : Nat) < 2 ^ 256 ∧ (2 ^ 64 - 1 : Nat) < 2 ^ 64) ∧
      (getuint256 (setuint256 7 (2 ^ 256 - 1)) = 2 ^ 256 - 1 ∧
        getuint256 (setuint64 7 (2 ^ 64 - 1)) = 2 ^ 64 - 1) :=
  ⟨⟨by norm_num, by norm_num⟩,
    getuint256_inverts_unsigned_setters 7 (2 ^ 256 - 1) (2 ^ 64 - 1) (by norm_num) (by norm_num)⟩

/-- Claim C4: for every value whose MPI payload is at most 3 bytes long,
`SetCompact (GetCompact v) = v`. -/
theorem SetCompact_GetCompact_small (self v : Int) (h : ((BN_bn2mpi v).drop 4).length ≤ 3) :
    SetCompact self (GetCompact v) = v := by
  rw [drop_four_bn2mpi] at h
  exact SetCompact_GetCompact self v h

theorem SetCompact_GetCompact_small_witness :
    ((BN_bn2mpi (-0x7fffff)).drop 4).length ≤ 3 ∧
      SetCompact 7 (GetCompact (-0x7fffff)) = -0x7fffff :=
  ⟨by decide, SetCompact_GetCompact_small 7 (-0x7fffff) (by decide)⟩

/-- Claim C7: `getuint256` returns the magnitude only: `|v| mod 2^256` for
every value, hence `|v|` when `|v| < 2^256`, whatever the sign; for the value
`-5` built by `setint64` it returns `5`. -/
theorem getuint256_magnitude (self v : Int) :
    getuint256 v = v.natAbs % 2 ^ 256 ∧ (v.natAbs < 2 ^ 256 → getuint256 v = v.natAbs) ∧
      getuint256 (setint64 self (-5)) = 5 := by
  refine ⟨getuint256_eq v, fun h => ?_, ?_⟩
  · rw [getuint256_eq, Nat.mod_eq_of_lt h]
  · rw [setint64_eq self (-5) (by norm_num) (by norm_num), getuint256_eq]
    rfl

theorem getuint256_magnitude_witness :
    (-5 : Int).natAbs < 2 ^ 256 ∧ getuint256 (-5) = (-5 : Int).natAbs :=
  ⟨by norm_num, (getuint256_magnitude 0 (-5)).2.1 (by norm_num)⟩

/-- Claim C8: `getint` returns the value clamped to the signed 32-bit range:
`INT_MAX` above it, `INT_MIN` below it, the value itself inside; it never
wraps. -/
theorem getint_saturates (v : Int) :
    getint v = (if 2 ^ 31 - 1 < v then 2 ^ 31 - 1 else if v < -2 ^ 31 then -2 ^ 31 else v) ∧
      -2 ^ 31 ≤ getint v ∧ getint v ≤ 2 ^ 31 - 1 := by
  have h := getint_eq v
  unfold INT_MAX INT_MIN at h
  rw [h]
  refine ⟨rfl, ?_, ?_⟩ <;> split_ifs <;> omega

/-- Claim C9: in the buffers the fixed-width setters build, a magnitude whose
leading natural byte has bit 7 set is preceded by one injected byte (`0x00`, or
`0x80` for a negative argument of `setint64`) and the header holds the natural
byte count plus one; otherwise no byte is injected, the header holds the
natural byte count, and only a negative argument of `setint64` sets bit 7 of
the leading byte. -/
theorem setters_sign_padding (u w : Nat) (n : Int) (hu : u < 2 ^ 64) (hw : w < 2 ^ 256)
    (hlo : -2 ^ 63 ≤ n) (hhi : n < 2 ^ 63) :
    (setuint64Buf u =
      if 128 ≤ (naturalBytes u).headD 0 then
        [0, 0, 0, (naturalBytes u).length + 1] ++ 0 :: naturalBytes u
      else [0, 0, 0, (naturalBytes u).length] ++ naturalBytes u) ∧
    (setuint256Buf w =
      if 128 ≤ (naturalBytes w).headD 0 then
        [0, 0, 0, (naturalBytes w).length + 1] ++ 0 :: naturalBytes w
      else [0, 0, 0, (naturalBytes w).length] ++ naturalBytes w) ∧
    (setint64Buf n =
      if 128 ≤ (naturalBytes n.natAbs).headD 0 then
        [0, 0, 0, (naturalBytes n.natAbs).length + 1]
          ++ (if n < 0 then 0x80 else 0) :: naturalBytes n.natAbs
      else
        [0, 0, 0, (naturalBytes n.natAbs).length]
          ++ (if n < 0 then
                ((naturalBytes n.natAbs).headD 0 + 128) :: (naturalBytes n.natAbs).tail
              else naturalBytes n.natAbs)) := by
  have su := setterBuf_shape (u : Int) 8 (by norm_num) (by simp only [Int.natAbs_ofNat]; omega)
  have sw := setterBuf_shape (w : Int) 32 (by norm_num) (by simp only [Int.natAbs_ofNat]; omega)
  have sn := setterBuf_shape n 9 (by norm_num) (by omega)
  have nu : ¬ ((u : Int) < 0) := by omega
  have nw : ¬ ((w : Int) < 0) := by omega
  simp only [Int.natAbs_ofNat, nu, nw, if_false] at su sw
  refine ⟨?_, ?_, ?_⟩
  · unfold setuint64Buf
    simp only [setuint64Payload_eq u hu]
    split_ifs with hc
    · exact su.1 hc
    · exact su.2 (by omega)
  · unfold setuint256Buf
    simp only [setuint256Payload_eq w hw]
    split_ifs with hc
    · exact sw.1 hc
    · exact sw.2 (by omega)
  · unfold setint64Buf
    simp only [setint64Payload_eq n hlo hhi]
    by_cases hc : 128 ≤ (naturalBytes n.natAbs).headD 0
    · rw [if_pos hc]; exact sn.1 hc
    · rw [if_neg hc]; exact sn.2 (by omega)

theorem setters_sign_padding_witness :
    ((0x80 : Nat) < 2 ^ 64 ∧ (2 ^ 255 : Nat) < 2 ^ 256 ∧ -2 ^ 63 ≤ (-0x80 : Int) ∧
        (-0x80 : Int) < 2 ^ 63) ∧
      setint64Buf (-0x80) =
        (if 128 ≤ (naturalBytes (-0x80 : Int).natAbs).headD 0 then
          [0, 0, 0, (naturalBytes (-0x80 : Int).natAbs).length + 1]
            ++ (if (-0x80 : Int) < 0 then 0x80 else 0) :: naturalBytes (-0x80 : Int).natAbs
        else
          [0, 0, 0, (naturalBytes (-0x80 : Int).natAbs).length]
            ++ (if (-0x80 : Int) < 0 then
                  ((naturalBytes (-0x80 : Int).natAbs).headD 0 + 128)
                    :: (naturalBytes (-0x80 : Int).natAbs).tail
                else naturalBytes (-0x80 : Int).natAbs)) :=
  ⟨⟨by norm_num, by norm_num, by norm_num, by norm_num⟩,
    (setters_sign_padding 0x80 (2 ^ 255) (-0x80) (by norm_num) (by norm_num) (by norm_num)
      (by norm_num)).2.2⟩

/-- Claim C10: for every value whose MPI payload `p` has length `nSize ≤ 255`,
`GetCompact` is `(nSize << 24) | mantissa` with
`mantissa = p[0]*2^16 + p[1]*2^8 + p[2]` (absent bytes read as 0); for a
non-negative value with `nSize ≥ 3` this is
`nSize*2^24 + v / 256^(nSize-3)`. -/
theorem GetCompact_layout (v : Int) (h : ((BN_bn2mpi v).drop 4).length ≤ 255) :
    GetCompact v =
      ((((BN_bn2mpi v).drop 4).length <<< 24) |||
        (((BN_bn2mpi v).drop 4).getD 0 0 * 2 ^ 16 + ((BN_bn2mpi v).drop 4).getD 1 0 * 2 ^ 8
          + ((BN_bn2mpi v).drop 4).getD 2 0)) ∧
    (0 ≤ v → 3 ≤ ((BN_bn2mpi v).drop 4).length →
      GetCompact v = ((BN_bn2mpi v).drop 4).length * 2 ^ 24
        + v.toNat / 256 ^ (((BN_bn2mpi v).drop 4).length - 3)) := by
  rw [drop_four_bn2mpi] at h ⊢
  have l0 := getD_lt _ (mpiPayload_lt v) 0
  have l1 := getD_lt _ (mpiPayload_lt v) 1
  have l2 := getD_lt _ (mpiPayload_lt v) 2
  refine ⟨?_, fun hv h3 => GetCompact_nonneg v h hv h3⟩
  rw [shiftLeft_or_mantissa _ _ (by omega), GetCompact_eq v h]
  ring

theorem GetCompact_layout_witness :
    ((BN_bn2mpi 0x800000).drop 4).length ≤ 255 ∧
      (0 ≤ (0x800000 : Int) ∧ 3 ≤ ((BN_bn2mpi 0x800000).drop 4).length) ∧
      GetCompact 0x800000 = ((BN_bn2mpi 0x800000).drop 4).length * 2 ^ 24
        + (0x800000 : Int).toNat / 256 ^ (((BN_bn2mpi 0x800000).drop 4).length - 3) :=
  ⟨by decide, ⟨by decide, by decide⟩,
    (GetCompact_layout 0x800000 (by decide)).2 (by decide) (by decide)⟩

/-! ## `SetHex` -/

theorem isxdigit_iff (c : Char) : isxdigit c = true ↔
    (48 ≤ c.toNat ∧ c.toNat ≤ 57) ∨ (65 ≤ c.toNat ∧ c.toNat ≤ 70) ∨
      (97 ≤ c.toNat ∧ c.toNat ≤ 102) := by
  simp [isxdigit, or_assoc]

theorem isspace_iff (c : Char) : isspace c = true ↔
    c.toNat = 32 ∨ (9 ≤ c.toNat ∧ c.toNat ≤ 13) := by
  simp [isspace]

theorem phexdigit_eq (c : Char) (h : isxdigit c = true) : phexdigit c = hexDigitValue c := by
  rw [isxdigit_iff] at h
  unfold phexdigit hexDigitValue
  generalize c.toNat = k at h
  rcases h with ⟨h1, h2⟩ | ⟨h1, h2⟩ | ⟨h1, h2⟩ <;> interval_cases k <;> rfl

theorem not_isspace_of_isxdigit (c : Char) (h : isxdigit c = true) : isspace c = false := by
  rw [isxdigit_iff] at h
  rw [Bool.eq_false_iff, Ne, isspace_iff]
  omega

theorem ne_minus_of_isxdigit (c : Char) (h : isxdigit c = true) : c ≠ '-' := by
  rintro rfl
  exact absurd h (by decide)

theorem ne_minus_of_isspace (c : Char) (h : isspace c = true) : c ≠ '-' := by
  rintro rfl
  exact absurd h (by decide)

theorem ne_zero_char_of_isspace (c : Char) (h : isspace c = true) : c ≠ '0' := by
  rintro rfl
  exact absurd h (by decide)

theorem tolower_ne_x (c : Char) (h : isxdigit c = true) : tolower c.toNat ≠ 'x'.toNat := by
  rw [isxdigit_iff] at h
  have hx : 'x'.toNat = 120 := by decide
  rw [hx]
  unfold tolower
  split_ifs <;> omega

theorem skipSpaces_append (ws r : List Char) (h : ∀ c ∈ ws, isspace c = true) :
    skipSpaces (ws ++ r) = skipSpaces r := by
  induction ws with
  | nil => rfl
  | cons c ws ih =>
    rw [List.cons_append, skipSpaces, if_pos (h c (List.mem_cons_self _ _))]
    exact ih (fun x hx => h x (List.mem_cons_of_mem _ hx))

theorem skipSpaces_of_head (r : List Char) (h : ∀ c ∈ r.head?, isspace c = false) :
    skipSpaces r = r := by
  cases r with
  | nil => rfl
  | cons c r =>
    have := h c (by simp)
    simp [skipSpaces, this]

theorem hexLoop_append (d tail : List Char) (hd : ∀ c ∈ d, isxdigit c = true)
    (ht : stopsDigits tail) : ∀ acc : Nat,
    hexLoop (d ++ tail) (acc : Int) = ((d.foldl (fun v c => v * 16 + hexDigitValue c) acc : Nat) : Int) := by
  induction d with
  | nil =>
    intro acc
    cases tail with
    | nil => rfl
    | cons c t =>
      have := ht c (by simp)
      simp [hexLoop, this]
  | cons c d ih =>
    intro acc
    have hc := hd c (List.mem_cons_self _ _)
    rw [List.cons_append, hexLoop, if_pos hc, phexdigit_eq c hc, List.foldl_cons]
    have := ih (fun x hx => hd x (List.mem_cons_of_mem _ hx)) (acc * 16 + hexDigitValue c)
    rw [← this]
    congr 1

theorem hexLoop_digits (d tail : List Char) (hd : ∀ c ∈ d, isxdigit c = true)
    (ht : stopsDigits tail) : hexLoop (d ++ tail) 0 = (hexValue d : Int) := by
  have := hexLoop_append d tail hd ht 0
  simpa [hexValue] using this

/-- A run of digits followed by a stop is left alone by the skipping steps. -/
theorem head_digits (d tail : List Char) (hd : ∀ c ∈ d, isxdigit c = true)
    (ht : ∀ c ∈ tail.head?, isspace c = false) : ∀ c ∈ (d ++ tail).head?, isspace c = false := by
  cases d with
  | nil => simpa using ht
  | cons c d =>
    intro x hx
    simp only [List.cons_append, List.head?_cons, Option.mem_def, Option.some.injEq] at hx
    subst hx
    exact not_isspace_of_isxdigit _ (hd _ (List.mem_cons_self _ _))

theorem SetHex_mk (l : List Char) :
    SetHex (String.mk l) =
      if (skipSign (skipSpaces l)).1 then
        0 - hexLoop (skipSpaces (skipPrefix (skipSign (skipSpaces l)).2)) 0
      else hexLoop (skipSpaces (skipPrefix (skipSign (skipSpaces l)).2)) 0 := rfl

theorem skipSign_minus (r : List Char) : skipSign ('-' :: r) = (true, r) := by
  simp [skipSign]

theorem skipSign_of_head (r : List Char) (h : ∀ c ∈ r.head?, c ≠ '-') :
    skipSign r = (false, r) := by
  cases r with
  | nil => rfl
  | cons c r =>
    have := h c (by simp)
    simp [skipSign, this]

theorem skipPrefix_lower (r : List Char) : skipPrefix ('0' :: 'x' :: r) = r := by
  have : tolower 120 = 120 := by decide
  simp [skipPrefix, this]

theorem skipPrefix_upper (r : List Char) : skipPrefix ('0' :: 'X' :: r) = r := by
  have : tolower 88 = 120 := by decide
  simp [skipPrefix, this]

theorem skipPrefix_of_head (r : List Char) (h : ∀ c ∈ r.head?, c ≠ '0') : skipPrefix r = r := by
  cases r with
  | nil => simp [skipPrefix]
  | cons c r =>
    have := h c (by simp)
    simp [skipPrefix, this]

theorem skipPrefix_spaces (ws r : List Char) (hw : ∀ c ∈ ws, isspace c = true)
    (hr : skipPrefix r = r) : skipPrefix (ws ++ r) = ws ++ r := by
  cases ws with
  | nil => simpa using hr
  | cons c ws =>
    apply skipPrefix_of_head
    intro x hx
    simp only [List.cons_append, List.head?_cons, Option.mem_def, Option.some.injEq] at hx
    subst hx
    exact ne_zero_char_of_isspace _ (hw _ (List.mem_cons_self _ _))

theorem skipPrefix_digits (d : List Char) (hd : ∀ c ∈ d, isxdigit c = true) :
    skipPrefix d = d := by
  match d, hd with
  | [], _ => simp [skipPrefix]
  | [c], _ =>
    have : ¬ tolower 0 = 120 := by decide
    simp [skipPrefix, this]
  | c :: c1 :: d, hd =>
    have := tolower_ne_x c1 (hd c1 (by simp))
    rw [show 'x'.toNat = 120 from rfl] at this
    simp [skipPrefix, this]

/-- The text a digit run and its stop leave for the digit loop. -/
theorem skipSpaces_rest (ws r : List Char) (hw : ∀ c ∈ ws, isspace c = true)
    (hr : ∀ c ∈ r.head?, isspace c = false) : skipSpaces (ws ++ r) = r := by
  rw [skipSpaces_append ws r hw, skipSpaces_of_head r hr]

/-- The parse of `SetHex`: white space, an optional sign, an optional prefix,
white space, the digits `d`, and a rest that stops the digit loop. -/
theorem SetHex_parse (ws1 ws2 d tail : List Char) (neg : Bool) (pre : List Char)
    (hpre : pre = [] ∨ pre = ['0', 'x'] ∨ pre = ['0', 'X'])
    (h1 : ∀ c ∈ ws1, isspace c = true) (h2 : ∀ c ∈ ws2, isspace c = true)
    (hd : ∀ c ∈ d, isxdigit c = true) (ht : stopsDigits tail)
    (r1 : ∀ c ∈ (d ++ tail).head?, isspace c = false)
    (r2 : neg = false → pre = [] → ∀ c ∈ (d ++ tail).head?, c ≠ '-')
    (r3 : skipPrefix (d ++ tail) = d ++ tail) :
    SetHex (String.mk (ws1 ++ ((if neg then ['-'] else []) ++ (pre ++ (ws2 ++ (d ++ tail))))))
      = if neg then -(hexValue d : Int) else hexValue d := by
  rw [SetHex_mk]
  have hloop := hexLoop_digits d tail hd ht
  have hs2 := skipSpaces_rest ws2 (d ++ tail) h2 r1
  cases neg with
  | true =>
    have a1 : skipSpaces (ws1 ++ (['-'] ++ (pre ++ (ws2 ++ (d ++ tail)))))
        = '-' :: (pre ++ (ws2 ++ (d ++ tail))) :=
      skipSpaces_rest ws1 _ h1 (by
        intro c hc
        simp only [List.singleton_append, List.head?_cons, Option.mem_def,
          Option.some.injEq] at hc
        subst hc; decide)
    simp only [if_true, a1, skipSign_minus]
    rcases hpre with rfl | rfl | rfl
    · rw [List.nil_append, skipPrefix_spaces ws2 _ h2 r3, hs2, hloop]; simp
    · rw [show ['0', 'x'] ++ (ws2 ++ (d ++ tail)) = '0' :: 'x' :: (ws2 ++ (d ++ tail)) from rfl,
        skipPrefix_lower, hs2, hloop]; simp
    · rw [show ['0', 'X'] ++ (ws2 ++ (d ++ tail)) = '0' :: 'X' :: (ws2 ++ (d ++ tail)) from rfl,
        skipPrefix_upper, hs2, hloop]; simp
  | false =>
    simp only [Bool.false_eq_true, if_false, List.nil_append]
    rcases hpre with rfl | rfl | rfl
    · have a1 : skipSpaces (ws1 ++ ([] ++ (ws2 ++ (d ++ tail)))) = d ++ tail := by
        rw [List.nil_append, skipSpaces_append ws1 _ h1]; exact hs2
      rw [a1, skipSign_of_head _ (r2 rfl rfl)]
      simp only [Bool.false_eq_true, if_false]
      rw [r3, skipSpaces_of_head _ r1, hloop]
    · have a1 : skipSpaces (ws1 ++ (['0', 'x'] ++ (ws2 ++ (d ++ tail))))
          = '0' :: 'x' :: (ws2 ++ (d ++ tail)) :=
        skipSpaces_rest ws1 _ h1 (by
          intro c hc
          simp only [List.cons_append, List.head?_cons, Option.mem_def,
            Option.some.injEq] at hc
          subst hc; decide)
      rw [a1, skipSign_of_head _ (by
        intro c hc
        simp only [List.head?_cons, Option.mem_def, Option.some.injEq] at hc
        subst hc; decide)]
      simp only [Bool.false_eq_true, if_false]
      rw [skipPrefix_lower, hs2, hloop]
    · have a1 : skipSpaces (ws1 ++ (['0', 'X'] ++ (ws2 ++ (d ++ tail))))
          = '0' :: 'X' :: (ws2 ++ (d ++ tail)) :=
        skipSpaces_rest ws1 _ h1 (by
          intro c hc
          simp only [List.cons_append, List.head?_cons, Option.mem_def,
            Option.some.injEq] at hc
          subst hc; decide)
      rw [a1, skipSign_of_head _ (by
        intro c hc
        simp only [List.head?_cons, Option.mem_def, Option.some.injEq] at hc
        subst hc; decide)]
      simp only [Bool.false_eq_true, if_false]
      rw [skipPrefix_upper, hs2, hloop]

theorem stopsDigits_nil : stopsDigits [] := by
  intro c hc; simp at hc

theorem stopsDigits_cons (c : Char) (t : List Char) (hc : isxdigit c = false) :
    stopsDigits (c :: t) := by
  intro x hx
  simp only [List.head?_cons, Option.mem_def, Option.some.injEq] at hx
  subst hx; exact hc

theorem skipPrefix_of_stop (r : List Char) (h : stopsDigits r) : skipPrefix r = r := by
  apply skipPrefix_of_head
  intro c hc
  have := h c hc
  rintro rfl
  exact absurd this (by decide)

theorem SetHex_digits_only (d : List Char) (hd : ∀ c ∈ d, isxdigit c = true) :
    SetHex (String.mk d) = hexValue d := by
  have := SetHex_parse [] [] d [] false [] (Or.inl rfl) (by simp) (by simp) hd stopsDigits_nil
    (head_digits d [] hd (by simp))
    (by
      intro _ _ c hc
      cases d with
      | nil => simp at hc
      | cons a d =>
        simp only [List.append_nil, List.head?_cons, Option.mem_def, Option.some.injEq] at hc
        subst hc
        exact ne_minus_of_isxdigit _ (hd _ (List.mem_cons_self _ _)))
    (by rw [List.append_nil]; exact skipPrefix_digits d hd)
  simpa using this

theorem char_eq_of_toNat (c : Char) (n : Nat) (h : c.toNat = n) : c = Char.ofNat n := by
  rw [← h, Char.ofNat_toNat]

theorem tolower_eq_x (c : Char) (h : tolower c.toNat = 120) : c = 'x' ∨ c = 'X' := by
  unfold tolower at h
  split_ifs at h with hc
  · right
    exact char_eq_of_toNat c 88 (by omega)
  · left
    exact char_eq_of_toNat c 120 h

theorem skipPrefix_truncated (d : List Char) (c : Char) (t : List Char)
    (hd : ∀ x ∈ d, isxdigit x = true) (hc : isxdigit c = false)
    (hx : ¬ (d = ['0'] ∧ (c = 'x' ∨ c = 'X'))) :
    skipPrefix (d ++ c :: t) = d ++ c :: t := by
  match d, hd, hx with
  | [], _, _ => exact skipPrefix_of_stop _ (stopsDigits_cons c t hc)
  | [a], _, hx =>
    by_cases ha : a = '0'
    · subst ha
      have hne : ¬ tolower c.toNat = 120 := fun h => hx ⟨rfl, tolower_eq_x c h⟩
      simp [skipPrefix, hne]
    · exact skipPrefix_of_head _ (by
        intro x hx'
        simp only [List.cons_append, List.head?_cons, Option.mem_def, Option.some.injEq] at hx'
        subst hx'; exact ha)
  | a :: b :: d, hd, _ =>
    have := tolower_ne_x b (hd b (by simp))
    rw [show 'x'.toNat = 120 from rfl] at this
    simp [skipPrefix, this]

theorem SetHex_truncated (d : List Char) (c : Char) (t : List Char)
    (hd : ∀ x ∈ d, isxdigit x = true) (hc : isxdigit c = false)
    (hx : ¬ (d = ['0'] ∧ (c = 'x' ∨ c = 'X')))
    (he : d = [] → isspace c = false ∧ c ≠ '-') :
    SetHex (String.mk (d ++ c :: t)) = hexValue d := by
  have := SetHex_parse [] [] d (c :: t) false [] (Or.inl rfl) (by simp) (by simp) hd
    (stopsDigits_cons c t hc)
    (by
      cases d with
      | nil =>
        intro x hx'
        simp only [List.nil_append, List.head?_cons, Option.mem_def, Option.some.injEq] at hx'
        subst hx'; exact (he rfl).1
      | cons a d =>
        intro x hx'
        simp only [List.cons_append, List.head?_cons, Option.mem_def, Option.some.injEq] at hx'
        subst hx'; exact not_isspace_of_isxdigit _ (hd _ (List.mem_cons_self _ _)))
    (by
      intro _ _
      cases d with
      | nil =>
        intro x hx'
        simp only [List.nil_append, List.head?_cons, Option.mem_def, Option.some.injEq] at hx'
        subst hx'; exact (he rfl).2
      | cons a d =>
        intro x hx'
        simp only [List.cons_append, List.head?_cons, Option.mem_def, Option.some.injEq] at hx'
        subst hx'; exact ne_minus_of_isxdigit _ (hd _ (List.mem_cons_self _ _)))
    (skipPrefix_truncated d c t hd hc hx)
  simpa using this

/-- Claim C5: for a string `d` of hexadecimal digits (either case), `SetHex`
of `d`, of `0x`+`d` and of `0X`+`d` is the number `d` denotes in base 16, of
`-`+`d` and `-0x`+`d` its negation, and white space before the sign or between
the prefix and the digits changes nothing; `0x1A` gives 26, `-0x1A` gives -26
and `  ff ` gives 255. -/
theorem SetHex_value (ws1 ws2 d : List Char) (h1 : ∀ c ∈ ws1, isspace c = true)
    (h2 : ∀ c ∈ ws2, isspace c = true) (hd : ∀ c ∈ d, isxdigit c = true) (hne : d ≠ []) :
    SetHex (String.mk d) = hexValue d ∧
    SetHex (String.mk ('0' :: 'x' :: d)) = hexValue d ∧
    SetHex (String.mk ('0' :: 'X' :: d)) = hexValue d ∧
    SetHex (String.mk ('-' :: d)) = -(hexValue d : Int) ∧
    SetHex (String.mk ('-' :: '0' :: 'x' :: d)) = -(hexValue d : Int) ∧
    (∀ (neg : Bool) (pre : List Char), pre = [] ∨ pre = ['0', 'x'] ∨ pre = ['0', 'X'] →
      SetHex (String.mk (ws1 ++ ((if neg then ['-'] else []) ++ (pre ++ (ws2 ++ d)))))
        = if neg then -(hexValue d : Int) else hexValue d) ∧
    SetHex "0x1A" = 26 ∧ SetHex "-0x1A" = -26 ∧ SetHex "  ff " = 255 := by
  have key : ∀ (w1 w2 : List Char) (neg : Bool) (pre : List Char),
      (∀ c ∈ w1, isspace c = true) → (∀ c ∈ w2, isspace c = true) →
      pre = [] ∨ pre = ['0', 'x'] ∨ pre = ['0', 'X'] →
      SetHex (String.mk (w1 ++ ((if neg then ['-'] else []) ++ (pre ++ (w2 ++ d)))))
        = if neg then -(hexValue d : Int) else hexValue d := by
    intro w1 w2 neg pre hw1 hw2 hpre
    have := SetHex_parse w1 w2 d [] neg pre hpre hw1 hw2 hd stopsDigits_nil
      (head_digits d [] hd (by simp))
      (by
        intro _ _ c hc
        cases d with
        | nil => exact absurd rfl hne
        | cons a d =>
          simp only [List.append_nil, List.head?_cons, Option.mem_def, Option.some.injEq] at hc
          subst hc
          exact ne_minus_of_isxdigit _ (hd _ (List.mem_cons_self _ _)))
      (by rw [List.append_nil]; exact skipPrefix_digits d hd)
    simpa using this
  refine ⟨?_, ?_, ?_, ?_, ?_, fun neg pre hpre => key ws1 ws2 neg pre h1 h2 hpre,
    by decide, by decide, by decide⟩
  · simpa using key [] [] false [] (by simp) (by simp) (Or.inl rfl)
  · simpa using key [] [] false ['0', 'x'] (by simp) (by simp) (Or.inr (Or.inl rfl))
  · simpa using key [] [] false ['0', 'X'] (by simp) (by simp) (Or.inr (Or.inr rfl))
  · simpa using key [] [] true [] (by simp) (by simp) (Or.inl rfl)
  · simpa using key [] [] true ['0', 'x'] (by simp) (by simp) (Or.inr (Or.inl rfl))

theorem SetHex_value_witness :
    ((∀ c ∈ [' ', ' '], isspace c = true) ∧ (∀ c ∈ [' '], isspace c = true) ∧
        (∀ c ∈ ['1', 'a', 'F'], isxdigit c = true) ∧ ['1', 'a', 'F'] ≠ []) ∧
      SetHex (String.mk ('-' :: '0' :: 'x' :: ['1', 'a', 'F'])) = -(hexValue ['1', 'a', 'F'] : Int) :=
  ⟨⟨by decide, by decide, by decide, by decide⟩,
    (SetHex_value [' ', ' '] [' '] ['1', 'a', 'F'] (by decide) (by decide) (by decide)
      (by decide)).2.2.2.2.1⟩

/-- Claim C6 fails as stated: `0`, then `x`, then `12` parses as the prefixed
number 18 and not as the digit `0`; an empty digit run followed by a blank or
by `-` goes on to parse what follows. -/
theorem SetHex_truncation_counterexample :
    ((∀ x ∈ ['0'], isxdigit x = true) ∧ isxdigit 'x' = false ∧
        SetHex (String.mk (['0'] ++ 'x' :: ['1', '2'])) ≠ SetHex (String.mk ['0'])) ∧
      ((∀ x ∈ ([] : List Char), isxdigit x = true) ∧ isxdigit ' ' = false ∧
        SetHex (String.mk ([] ++ ' ' :: ['f', 'f'])) ≠ SetHex (String.mk [])) := by
  decide

/-- Claim C6, amended: `SetHex` never fails and stops at the first character
that is not a hexadecimal digit: `SetHex (d + c + t) = SetHex d` for hex digits
`d`, a non-digit `c` and any `t`, unless `d` is `0` and `c` is `x` or `X` (a
prefix), or `d` is empty and `c` is white space or `-`; and an input with no
hex digit after the optional white space, sign, prefix and white space gives
zero, as `""` and `"xyz"` do. -/
theorem SetHex_truncates (d : List Char) (c : Char) (t : List Char)
    (hd : ∀ x ∈ d, isxdigit x = true) (hc : isxdigit c = false)
    (hx : ¬ (d = ['0'] ∧ (c = 'x' ∨ c = 'X')))
    (he : d = [] → isspace c = false ∧ c ≠ '-') :
    SetHex (String.mk (d ++ c :: t)) = SetHex (String.mk d) ∧
    (∀ (ws1 ws2 rest pre : List Char) (neg : Bool),
      (∀ x ∈ ws1, isspace x = true) → (∀ x ∈ ws2, isspace x = true) →
      pre = [] ∨ pre = ['0', 'x'] ∨ pre = ['0', 'X'] →
      (∀ x ∈ rest.head?, isxdigit x = false ∧ isspace x = false) →
      (neg = false → pre = [] → ∀ x ∈ rest.head?, x ≠ '-') →
      SetHex (String.mk (ws1 ++ ((if neg then ['-'] else []) ++ (pre ++ (ws2 ++ rest))))) = 0) ∧
    SetHex "" = 0 ∧ SetHex "xyz" = 0 := by
  refine ⟨?_, ?_, by decide, by decide⟩
  · rw [SetHex_truncated d c t hd hc hx he, SetHex_digits_only d hd]
  · intro ws1 ws2 rest pre neg h1 h2 hpre hr hm
    have hstop : stopsDigits rest := fun x hx' => (hr x hx').1
    have := SetHex_parse ws1 ws2 [] rest neg pre hpre h1 h2 (by simp) hstop
      (by intro x hx'; exact (hr x (by simpa using hx')).2)
      (by intro hn hp x hx'; exact hm hn hp x (by simpa using hx'))
      (by rw [List.nil_append]; exact skipPrefix_of_stop rest hstop)
    rw [List.nil_append] at this
    rw [this]
    cases neg <;> simp [hexValue]

theorem SetHex_truncates_witness :
    ((∀ x ∈ ['f', 'f'], isxdigit x = true) ∧ isxdigit ' ' = false ∧
        ¬ (['f', 'f'] = ['0'] ∧ (' ' = 'x' ∨ ' ' = 'X')) ∧
        (['f', 'f'] = [] → isspace ' ' = false ∧ ' ' ≠ '-')) ∧
      SetHex (String.mk (['f', 'f'] ++ ' ' :: ['9'])) = SetHex (String.mk ['f', 'f']) :=
  ⟨⟨by decide, by decide, by decide, by decide⟩,
    (SetHex_truncates ['f', 'f'] ' ' ['9'] (by decide) (by decide) (by decide) (by decide)).1⟩

/-! ## Small values, zero and buffer sizes -/

theorem natAbs_lt_pow_payload (v : Int) : v.natAbs < 256 ^ (mpiPayload v).length := by
  have := bin2bn_lt _ (maskHead_lt _ (mpiPayload_lt v))
  rwa [bin2bn_maskHead_mpiPayload, maskHead_length] at this

theorem getuint256_small (v : Int) (h : (mpiPayload v).length ≤ 32) :
    getuint256 v = v.natAbs := by
  rw [getuint256_eq]
  apply Nat.mod_eq_of_lt
  have h1 := natAbs_lt_pow_payload v
  have h2 : (256 : Nat) ^ (mpiPayload v).length ≤ 256 ^ 32 :=
    Nat.pow_le_pow_right (by norm_num) h
  have e : (2 : Nat) ^ 256 = 256 ^ 32 := by norm_num
  omega

theorem header_value (l : Nat) (p : List Nat) (h : l < 256) : BN_bin2bn ((sizeHeader l ++ p).take 4) = l := by
  rw [sizeHeader_small l h]
  simp [BN_bin2bn]

theorem setterBuf_size (a : Int) (k : Nat) (hk : k < 255) (ha : a.natAbs < 256 ^ k) :
    (mpiPayload a).length ≤ k + 1 ∧
      (sizeHeader (mpiPayload a).length ++ mpiPayload a).length ≤ k + 5 ∧
      (sizeHeader (mpiPayload a).length ++ mpiPayload a).length
        = 4 + BN_bin2bn ((sizeHeader (mpiPayload a).length ++ mpiPayload a).take 4) := by
  have hl := mpiPayload_length_le_of_lt a k ha
  refine ⟨hl, ?_, ?_⟩
  · rw [List.length_append, sizeHeader_length]; omega
  · rw [header_value _ _ (by omega), List.length_append, sizeHeader_length]

/-- Claim C11, amended: the value `0x800000`, whose MPI payload is
`[0x00,0x80,0x00,0x00]` with `nSize = 4`, is encoded by `GetCompact` to the
compact word `0x04008000`: the mantissa is the first three payload bytes. -/
theorem GetCompact_known_vector :
    (BN_bn2mpi 0x800000).drop 4 = [0x00, 0x80, 0x00, 0x00] ∧ GetCompact 0x800000 = 0x04008000 := by
  decide

/-- Claim C11 fails as stated: `GetCompact` of `0x800000` is not
`0x04800000`. -/
theorem GetCompact_known_vector_counterexample :
    (BN_bn2mpi 0x800000).drop 4 = [0x00, 0x80, 0x00, 0x00] ∧ GetCompact 0x800000 ≠ 0x04800000 := by
  decide

theorem negateInt64_exact (n : Int) (h1 : -2 ^ 63 < n) (h2 : n < 0) : negateInt64 n = -n := by
  unfold negateInt64 wrapInt64
  omega

/-- Claim C14 fails at the minimum value: the negation of `-2^63` is `2^63`,
which no `int64` holds, so what `n = -n` leaves in `n` is `-2^63` again and
not the negation. -/
theorem setint64_negation_overflows :
    ¬ ((-2 ^ 63 : Int) ≤ -(-2 ^ 63) ∧ -(-2 ^ 63 : Int) < 2 ^ 63) ∧
      negateInt64 (-2 ^ 63) = -2 ^ 63 ∧ negateInt64 (-2 ^ 63) ≠ -(-2 ^ 63) := by
  refine ⟨by norm_num, by decide, by decide⟩

/-- Claim C15 fails as stated: the value 5 has a one-byte payload and
`getuint256` returns 5. -/
theorem getuint256_short_payload_counterexample :
    ((BN_bn2mpi 5).drop 4).length < 4 ∧ getuint256 5 = 5 ∧ getuint256 5 ≠ 0 := by
  decide

/-- Claim C15, amended: for every value whose MPI payload is shorter than 4
bytes `getuint256` returns the magnitude, which is zero only for the value
zero; the length its guard compares with 4 includes the header and is never
smaller. -/
theorem getuint256_short_payload (v : Int) (h : ((BN_bn2mpi v).drop 4).length < 4) :
    getuint256 v = v.natAbs ∧ (getuint256 v = 0 ↔ v = 0) ∧ 4 ≤ (BN_bn2mpi v).length := by
  rw [drop_four_bn2mpi] at h
  have e := getuint256_small v (by omega)
  refine ⟨e, ?_, ?_⟩
  · rw [e]; omega
  · rw [BN_bn2mpi_length]; omega

theorem getuint256_short_payload_witness :
    ((BN_bn2mpi (-0x7fffff)).drop 4).length < 4 ∧
      (getuint256 (-0x7fffff) = (-0x7fffff : Int).natAbs ∧
        (getuint256 (-0x7fffff) = 0 ↔ (-0x7fffff : Int) = 0) ∧
        4 ≤ (BN_bn2mpi (-0x7fffff)).length) :=
  ⟨by decide, getuint256_short_payload (-0x7fffff) (by decide)⟩

/-- Claim C16: zero is canonical in every codec: `getvch` of zero is the empty
vector, `GetCompact` of zero is 0, and `setvch` of the empty vector and
`SetCompact 0` both leave the value zero, whatever the object held. -/
theorem zero_canonical (self : Int) :
    getvch 0 = [] ∧ ((BN_bn2mpi 0).drop 4).length = 0 ∧ GetCompact 0 = 0 ∧
      setvch self [] = 0 ∧ SetCompact self 0 = 0 := by
  refine ⟨by decide, by decide, by decide, ?_, ?_⟩
  · have := setvch_reverse_mpiPayload self 0 (by decide)
    simpa [mpiPayload, BN_bn2bin_zero, signPad] using this
  · have := SetCompact_GetCompact self 0 (by decide)
    rwa [show GetCompact 0 = 0 by decide] at this

/-- Claim C20: the setters stay inside their stack buffers: `setint64` and
`setuint64` write at most 9 payload bytes, 13 bytes in all of the 14,
`setuint256` at most 33 payload bytes, 37 in all of the 38, and the length
handed to `BN_mpi2bn` is 4 plus the payload length stored in the header. -/
theorem setters_stay_in_buffer (u w : Nat) (n : Int) (hu : u < 2 ^ 64) (hw : w < 2 ^ 256)
    (hlo : -2 ^ 63 ≤ n) (hhi : n < 2 ^ 63) :
    ((setint64Payload n).length ≤ 9 ∧ (setint64Buf n).length ≤ 13 ∧
        (setint64Buf n).length < pchSize64 ∧
        (setint64Buf n).length = 4 + BN_bin2bn ((setint64Buf n).take 4)) ∧
    ((setuint64Payload u).length ≤ 9 ∧ (setuint64Buf u).length ≤ 13 ∧
        (setuint64Buf u).length < pchSize64 ∧
        (setuint64Buf u).length = 4 + BN_bin2bn ((setuint64Buf u).take 4)) ∧
    ((setuint256Payload w).length ≤ 33 ∧ (setuint256Buf w).length ≤ 37 ∧
        (setuint256Buf w).length < pchSize256 ∧
        (setuint256Buf w).length = 4 + BN_bin2bn ((setuint256Buf w).take 4)) := by
  have sn := setterBuf_size n 8 (by norm_num) (by omega)
  have su := setterBuf_size (u : Int) 8 (by norm_num) (by simp only [Int.natAbs_ofNat]; omega)
  have sw := setterBuf_size (w : Int) 32 (by norm_num) (by simp only [Int.natAbs_ofNat]; omega)
  unfold setint64Buf setuint64Buf setuint256Buf pchSize64 pchSize256
  simp only [setint64Payload_eq n hlo hhi, setuint64Payload_eq u hu, setuint256Payload_eq w hw]
  refine ⟨⟨sn.1, sn.2.1, ?_, sn.2.2⟩, ⟨su.1, su.2.1, ?_, su.2.2⟩, ⟨sw.1, sw.2.1, ?_, sw.2.2⟩⟩
  · have := sn.2.1; omega
  · have := su.2.1; omega
  · have := sw.2.1; omega

theorem setters_stay_in_buffer_witness :
    ((2 ^ 64 - 1 : Nat) < 2 ^ 64 ∧ (2 ^ 256 - 1 : Nat) < 2 ^ 256 ∧ -2 ^ 63 ≤ (-2 ^ 63 : Int) ∧
        (-2 ^ 63 : Int) < 2 ^ 63) ∧
      ((setint64Payload (-2 ^ 63)).length ≤ 9 ∧ (setint64Buf (-2 ^ 63)).length ≤ 13 ∧
        (setint64Buf (-2 ^ 63)).length < pchSize64 ∧
        (setint64Buf (-2 ^ 63)).length = 4 + BN_bin2bn ((setint64Buf (-2 ^ 63)).take 4)) :=
  ⟨⟨by norm_num, by norm_num, by norm_num, by norm_num⟩,
    (setters_stay_in_buffer (2 ^ 64 - 1) (2 ^ 256 - 1) (-2 ^ 63) (by norm_num) (by norm_num)
      (by norm_num) (by norm_num)).1⟩

/-! ## `SetCompact` on an arbitrary word -/

theorem SetCompact_eq_buf (self : Int) (c : Nat) :
    SetCompact self c = mpi2bnInto self (SetCompactBuf c) (wrapInt32 (SetCompactBuf c).length) :=
  rfl

theorem and_two_pow_ne_zero (x i : Nat) : x &&& 2 ^ i ≠ 0 ↔ x / 2 ^ i % 2 = 1 := by
  have ht : x.testBit i = decide (x / 2 ^ i % 2 = 1) := Nat.testBit_to_div_mod
  by_cases h : x / 2 ^ i % 2 = 1
  · simp only [h, iff_true]
    intro h0
    have : (x &&& 2 ^ i).testBit i = true := by
      rw [Nat.testBit_and, ht, Nat.testBit_two_pow_self]; simp [h]
    rw [h0] at this
    simp at this
  · simp only [h, iff_false, not_not]
    apply Nat.eq_of_testBit_eq
    intro j
    rw [Nat.testBit_and, Nat.testBit_two_pow, Nat.zero_testBit]
    by_cases hij : i = j
    · subst hij; simp [ht, h]
    · simp [hij]

theorem SetCompactBuf_eq (c : Nat) (hc : c < 2 ^ 32) :
    SetCompactBuf c = sizeHeader (c >>> 24) ++ compactPayload c := by
  have hn : c >>> 24 < 256 := by rw [Nat.shiftRight_eq_div_pow]; omega
  rw [sizeHeader_small _ hn]
  unfold SetCompactBuf compactPayload
  generalize (c >>> 16) &&& 0xff = b0
  generalize (c >>> 8) &&& 0xff = b1
  generalize (c >>> 0) &&& 0xff = b2
  generalize c >>> 24 = n at hn
  have hm : n % 256 = n := Nat.mod_eq_of_lt hn
  dsimp only
  rw [hm]
  match n with
  | 0 => simp [List.replicate]
  | 1 => simp [List.replicate]
  | 2 => simp [List.replicate]
  | k + 3 =>
    have e : 4 + (k + 3) = k + 1 + 1 + 1 + 1 + 1 + 1 + 1 := by omega
    rw [e]
    simp only [List.replicate_succ, List.set_cons_succ, List.set_cons_zero, ge_iff_le,
      Nat.le_add_left, if_true, Nat.add_sub_cancel, List.cons_append, List.nil_append,
      List.take_succ_cons, show (1 : Nat) ≤ k + 3 by omega, show (2 : Nat) ≤ k + 3 by omega]
    simp

theorem compactPayload_length (c : Nat) : (compactPayload c).length = c >>> 24 := by
  unfold compactPayload
  rw [List.length_take, List.length_append, List.length_replicate]
  simp only [List.length_cons, List.length_nil]
  omega

theorem SetCompact_eq_decode (self : Int) (c : Nat) (hc : c < 2 ^ 32) :
    SetCompact self c = decodePayload (compactPayload c) := by
  have hn : c >>> 24 < 256 := by rw [Nat.shiftRight_eq_div_pow]; omega
  rw [SetCompact_eq_buf, SetCompactBuf_eq c hc]
  have hl := compactPayload_length c
  have hw : wrapInt32 ((sizeHeader (c >>> 24) ++ compactPayload c).length : Nat)
      = ((compactPayload c).length : Int) + 4 := by
    rw [wrapInt32_of_lt _ (by rw [List.length_append, sizeHeader_length]; omega),
      List.length_append, sizeHeader_length]
    push_cast; ring
  rw [hw]
  unfold mpi2bnInto
  rw [← hl, mpi2bn_wellformed _ (by omega)]

theorem decodePayload_magnitude (h : Nat) (rest : List Nat) (hh : h < 256)
    (hr : ∀ b ∈ rest, b < 256) :
    decodePayload (h :: rest) =
      if 128 ≤ h then -((h % 128 * 256 ^ rest.length + BN_bin2bn rest : Nat) : Int)
      else ((h % 128 * 256 ^ rest.length + BN_bin2bn rest : Nat) : Int) := by
  rw [decodePayload_cons h rest hh hr]
  by_cases hs : 128 ≤ h
  · rw [if_pos hs, if_pos hs, show h % 128 = h - 128 by omega]
  · rw [if_neg hs, if_neg hs, show h % 128 = h by omega]

theorem bin2bn_zeros (k : Nat) : BN_bin2bn (List.replicate k 0) = 0 := by
  have := bin2bn_replicate_zero k []
  simpa [BN_bin2bn] using this

theorem and_800000 (c : Nat) : c &&& 0x00800000 ≠ 0 ↔ c / 2 ^ 23 % 2 = 1 :=
  and_two_pow_ne_zero c 23

theorem and_7fffff (c : Nat) : c &&& 0x007fffff = c % 2 ^ 23 :=
  Nat.and_pow_two_sub_one_eq_mod c 23

theorem compactPayload_lt (c : Nat) : ∀ b ∈ compactPayload c, b < 256 := by
  intro b hb
  unfold compactPayload at hb
  have hb := List.mem_of_mem_take hb
  simp only [List.cons_append, List.nil_append, List.mem_cons, List.mem_replicate, and_ff] at hb
  omega

/-- The value `SetCompact` leaves, for every 32-bit word. -/
theorem SetCompact_value_eq (self : Int) (c : Nat) (hc : c < 2 ^ 32) :
    SetCompact self c =
      if c &&& 0x00800000 ≠ 0 then -(compactMagnitude c : Int) else compactMagnitude c := by
  rw [SetCompact_eq_decode self c hc]
  have hbit := and_800000 c
  unfold compactMagnitude compactPayload
  rw [and_7fffff]
  simp only [and_ff, Nat.shiftRight_eq_div_pow] at hbit ⊢
  obtain ⟨n, hn⟩ : ∃ n, c / 2 ^ 24 = n := ⟨_, rfl⟩
  obtain ⟨b0, h0⟩ : ∃ b, c / 2 ^ 16 % 256 = b := ⟨_, rfl⟩
  obtain ⟨b1, h1⟩ : ∃ b, c / 2 ^ 8 % 256 = b := ⟨_, rfl⟩
  obtain ⟨b2, h2⟩ : ∃ b, c / 2 ^ 0 % 256 = b := ⟨_, rfl⟩
  obtain ⟨m, hm⟩ : ∃ m, c % 2 ^ 23 = m := ⟨_, rfl⟩
  have hm' : m = b0 % 128 * 65536 + b1 * 256 + b2 := by omega
  have hb0 : b0 < 256 := by omega
  have hb1 : b1 < 256 := by omega
  have hb2 : b2 < 256 := by omega
  have hs : (c / 2 ^ 23 % 2 = 1) ↔ 128 ≤ b0 := by omega
  rw [hn, h0, h1, h2, hm]
  simp only [hbit, hs]
  match n with
  | 0 =>
    have e : m / 256 ^ (3 - 0) = 0 := by norm_num; omega
    simp only [show ¬ (3 ≤ 0) by norm_num, if_false, e, List.take_zero, decodePayload_nil]
    simp
  | 1 =>
    have e : m / 256 ^ (3 - 1) = b0 % 128 := by norm_num; omega
    simp only [show ¬ (3 ≤ 1) by norm_num, if_false, e, List.cons_append, List.nil_append,
      List.take_succ_cons, List.take_zero]
    rw [decodePayload_magnitude b0 [] hb0 (by simp)]
    simp [bin2bn_nil]
  | 2 =>
    have e : m / 256 ^ (3 - 2) = b0 % 128 * 256 + b1 := by norm_num; omega
    simp only [show ¬ (3 ≤ 2) by norm_num, if_false, e, List.cons_append, List.nil_append,
      List.take_succ_cons, List.take_zero]
    rw [decodePayload_magnitude b0 [b1] hb0 (by simpa using hb1)]
    simp [BN_bin2bn]
  | k + 3 =>
    have ht : List.take (k + 3) ([b0, b1, b2] ++ List.replicate (k + 3 - 3) 0)
        = b0 :: ([b1, b2] ++ List.replicate k 0) := by
      simp
    have hr : ∀ b ∈ [b1, b2] ++ List.replicate k 0, b < 256 := by
      intro b hb
      simp only [List.cons_append, List.nil_append, List.mem_cons, List.mem_replicate] at hb
      omega
    have hv : b0 % 128 * 256 ^ ([b1, b2] ++ List.replicate k 0).length
        + BN_bin2bn ([b1, b2] ++ List.replicate k 0) = m * 256 ^ (k + 3 - 3) := by
      rw [bin2bn_append, bin2bn_zeros, List.length_append, List.length_replicate, hm']
      simp only [List.length_cons, List.length_nil, BN_bin2bn, List.foldl_cons, List.foldl_nil,
        Nat.add_sub_cancel]
      rw [show 0 + 1 + 1 + k = k + 2 by omega, pow_add]
      ring
    rw [ht, decodePayload_magnitude b0 _ hb0 hr, hv]
    simp

theorem compactPayload_large (c : Nat) (hn : 3 < c >>> 24) :
    compactPayload c = [(c >>> 16) &&& 0xff, (c >>> 8) &&& 0xff, (c >>> 0) &&& 0xff]
      ++ List.replicate (c >>> 24 - 3) 0 := by
  unfold compactPayload
  apply List.take_of_length_le
  rw [List.length_append, List.length_replicate]
  simp only [List.length_cons, List.length_nil]
  omega

theorem SetCompact_natAbs (self : Int) (c : Nat) (hc : c < 2 ^ 32) :
    (SetCompact self c).natAbs = compactMagnitude c := by
  rw [SetCompact_value_eq self c hc]
  split_ifs <;> simp

theorem SetCompact_neg_iff (self : Int) (c : Nat) (hc : c < 2 ^ 32) :
    SetCompact self c < 0 ↔ (c &&& 0x00800000 ≠ 0 ∧ compactMagnitude c ≠ 0) := by
  rw [SetCompact_value_eq self c hc]
  by_cases h : c &&& 0x00800000 ≠ 0
  · rw [if_pos h]
    constructor
    · intro hlt; exact ⟨h, by omega⟩
    · rintro ⟨_, h2⟩; omega
  · rw [if_neg h]
    constructor
    · intro hlt; omega
    · rintro ⟨h1, _⟩; exact absurd h1 h

/-- Claim C12 fails as stated: `SetCompact` puts the mantissa bytes first and
the zero bytes after them, so `0x04800000` decodes to zero, not to `0x800000`,
and `0x04123456` to `0x12345600`. -/
theorem SetCompact_large_exponent_counterexample :
    3 < 0x04800000 >>> 24 ∧ (SetCompactBuf 0x04800000).drop 4 = [0x80, 0, 0, 0] ∧
      SetCompact 7 0x04800000 = 0 ∧ SetCompact 7 0x04800000 ≠ 0x800000 ∧
      SetCompact 7 0x04123456 = 0x12345600 := by
  decide

/-- Claim C12, amended: for every 32-bit compact word whose exponent
`nSize = word >> 24` is greater than 3, `SetCompact` decodes a payload made of
the three mantissa bytes followed by `nSize - 3` zero bytes; the result has
magnitude `(word & 0x007fffff) * 256^(nSize - 3)` and is negative exactly when
bit `0x00800000` is set and the remaining mantissa bits are not all zero.
`SetCompact 0x04800000` is zero and `SetCompact 0x04008000` is `0x800000`. -/
theorem SetCompact_large_exponent (self : Int) (c : Nat) (hc : c < 2 ^ 32)
    (hn : 3 < c >>> 24) :
    (SetCompactBuf c).drop 4 =
      [(c >>> 16) &&& 0xff, (c >>> 8) &&& 0xff, c &&& 0xff]
        ++ List.replicate ((c >>> 24) - 3) 0 ∧
    (SetCompact self c).natAbs = (c &&& 0x007fffff) * 256 ^ ((c >>> 24) - 3) ∧
    (SetCompact self c < 0 ↔ (c &&& 0x00800000 ≠ 0 ∧ c &&& 0x007fffff ≠ 0)) ∧
    SetCompact self 0x04800000 = 0 ∧ SetCompact self 0x04008000 = 0x800000 := by
  have hmag : compactMagnitude c = (c &&& 0x007fffff) * 256 ^ ((c >>> 24) - 3) := by
    unfold compactMagnitude
    rw [if_pos (by omega)]
  refine ⟨?_, ?_, ?_, ?_, ?_⟩
  · rw [SetCompactBuf_eq c hc, compactPayload_large c hn, Nat.shiftRight_zero]
    simp [sizeHeader]
  · rw [SetCompact_natAbs self c hc, hmag]
  · rw [SetCompact_neg_iff self c hc, hmag]
    have hp : 0 < 256 ^ ((c >>> 24) - 3) := pow_pos (by norm_num) _
    constructor
    · rintro ⟨h1, h2⟩
      exact ⟨h1, fun h0 => h2 (by rw [h0, Nat.zero_mul])⟩
    · rintro ⟨h1, h2⟩
      exact ⟨h1, Nat.mul_ne_zero h2 (by omega)⟩
  · rw [SetCompact_value_eq self _ (by norm_num)]; decide
  · rw [SetCompact_value_eq self _ (by norm_num)]; decide

theorem SetCompact_large_exponent_witness :
    ((0x04008000 : Nat) < 2 ^ 32 ∧ 3 < 0x04008000 >>> 24) ∧
      (SetCompact 7 0x04008000).natAbs
        = (0x04008000 &&& 0x007fffff) * 256 ^ ((0x04008000 >>> 24) - 3) :=
  ⟨⟨by norm_num, by decide⟩,
    (SetCompact_large_exponent 7 0x04008000 (by norm_num) (by decide)).2.1⟩

/-- Claim C17: for every 32-bit word `c` with `n = c >> 24` and
`m = c & 0x007fffff`, `SetCompact c` has magnitude `m * 256^(n-3)` when
`n ≥ 3` and `m / 256^(3-n)` when `n < 3`, and is negative exactly when bit
`0x00800000` of `c` is set and that magnitude is not zero. -/
theorem SetCompact_arithmetic (self : Int) (c : Nat) (hc : c < 2 ^ 32) :
    (SetCompact self c).natAbs =
      (if 3 ≤ c >>> 24 then (c &&& 0x007fffff) * 256 ^ ((c >>> 24) - 3)
        else (c &&& 0x007fffff) / 256 ^ (3 - (c >>> 24))) ∧
    (SetCompact self c < 0 ↔ (c &&& 0x00800000 ≠ 0 ∧ (SetCompact self c).natAbs ≠ 0)) := by
  refine ⟨?_, ?_⟩
  · rw [SetCompact_natAbs self c hc]; rfl
  · rw [SetCompact_natAbs self c hc]; exact SetCompact_neg_iff self c hc

theorem SetCompact_arithmetic_witness :
    (0x02ffff00 : Nat) < 2 ^ 32 ∧
      ((SetCompact 7 0x02ffff00).natAbs =
        (if 3 ≤ 0x02ffff00 >>> 24 then (0x02ffff00 &&& 0x007fffff) * 256 ^ ((0x02ffff00 >>> 24) - 3)
          else (0x02ffff00 &&& 0x007fffff) / 256 ^ (3 - (0x02ffff00 >>> 24))) ∧
      (SetCompact 7 0x02ffff00 < 0 ↔
        (0x02ffff00 &&& 0x00800000 ≠ 0 ∧ (SetCompact 7 0x02ffff00).natAbs ≠ 0))) :=
  ⟨by norm_num, SetCompact_arithmetic 7 0x02ffff00 (by norm_num)⟩

/-! ## `setvch` on an arbitrary byte vector -/

theorem littleEndianValue_eq (b : List Nat) : littleEndianValue b = BN_bin2bn b.reverse := by
  induction b with
  | nil => rfl
  | cons x rest ih =>
    rw [littleEndianValue, List.reverse_cons, bin2bn_append_single, ih]
    ring

theorem setvch_eq_decode (self : Int) (b : List Nat) (hlen : b.length + 4 < 2 ^ 31) :
    setvch self b = decodePayload b.reverse := by
  unfold setvch
  rw [Nat.mod_eq_of_lt (by omega)]
  have hw : wrapInt32 ((sizeHeader b.length ++ b.reverse).length : Nat)
      = ((b.reverse.length : Nat) : Int) + 4 := by
    rw [wrapInt32_of_lt _ (by rw [List.length_append, sizeHeader_length, List.length_reverse]; omega),
      List.length_append, sizeHeader_length]
    push_cast; ring
  dsimp only
  rw [hw]
  unfold mpi2bnInto
  have := mpi2bn_wellformed b.reverse (by rw [List.length_reverse]; omega)
  rw [List.length_reverse] at this ⊢
  rw [this]

theorem setvch_value (self : Int) (b : List Nat) (hb : ∀ x ∈ b, x < 256)
    (hlen : b.length + 4 < 2 ^ 31) :
    setvch self b =
      if 128 ≤ b.getLastD 0 then
        -((littleEndianValue b - 128 * 256 ^ (b.length - 1) : Nat) : Int)
      else (littleEndianValue b : Int) := by
  rw [setvch_eq_decode self b hlen, littleEndianValue_eq]
  rcases List.eq_nil_or_concat b with rfl | ⟨init, last, rfl⟩
  · simp [decodePayload_nil, bin2bn_nil]
  · rw [List.concat_eq_append] at hb hlen ⊢
    have hl : last < 256 := hb last (by simp)
    have hi : ∀ x ∈ init.reverse, x < 256 := fun x hx => hb x (by
      rw [List.mem_reverse] at hx
      simp [hx])
    have hlast : (init ++ [last]).getLastD 0 = last := by simp
    rw [hlast, List.reverse_append, List.reverse_singleton, List.singleton_append,
      decodePayload_cons last init.reverse hl hi, bin2bn_cons, List.length_reverse,
      List.length_append, List.length_singleton, Nat.add_sub_cancel]
    by_cases hs : 128 ≤ last
    · rw [if_pos hs, if_pos hs]
      congr 2
      have := Nat.mul_le_mul_right (256 ^ init.length) hs
      rw [Nat.sub_mul]
      omega
    · rw [if_neg hs, if_neg hs]

/-- Claim C13 fails as stated: the vector `[0x81]` denotes 129 as a magnitude
but `setvch` reads bit 7 of its last byte as the sign and yields -1. -/
theorem setvch_magnitude_counterexample :
    (∀ x ∈ [0x81], x < 256) ∧ littleEndianValue [0x81] = 129 ∧ setvch 7 [0x81] = -1 ∧
      setvch 7 [0x81] < 0 ∧ setvch 7 [0x81] ≠ (littleEndianValue [0x81] : Int) := by
  decide

/-- Claim C13, amended: `setvch` reads its argument as a little-endian
sign-magnitude number whose sign flag is bit 7 of the last byte.  For a vector
of bytes (of a length the `int` argument of `BN_mpi2bn` holds) that is empty or
has bit 7 of its last byte clear it yields the non-negative sum of
`b[i] * 256^i`; with that bit set it yields minus the sum without the flag
bit. -/
theorem setvch_sign_magnitude (self : Int) (b : List Nat) (hb : ∀ x ∈ b, x < 256)
    (hlen : b.length + 4 < 2 ^ 31) :
    (b.getLastD 0 < 128 → setvch self b = littleEndianValue b ∧ 0 ≤ setvch self b) ∧
    (128 ≤ b.getLastD 0 →
      setvch self b = -((littleEndianValue b - 128 * 256 ^ (b.length - 1) : Nat) : Int)) := by
  have h := setvch_value self b hb hlen
  constructor
  · intro hs
    rw [h, if_neg (by omega)]
    exact ⟨rfl, by omega⟩
  · intro hs
    rw [h, if_pos hs]

theorem setvch_sign_magnitude_witness :
    ((∀ x ∈ [0x34, 0x12], x < 256) ∧ [0x34, 0x12].length + 4 < 2 ^ 31 ∧
        [0x34, 0x12].getLastD 0 < 128) ∧
      (setvch 7 [0x34, 0x12] = littleEndianValue [0x34, 0x12] ∧ 0 ≤ setvch 7 [0x34, 0x12]) :=
  ⟨⟨by decide, by decide, by decide⟩,
    (setvch_sign_magnitude 7 [0x34, 0x12] (by decide) (by decide)).1 (by decide)⟩

/-! ## Order on compact words -/

theorem mpiPayload_length_eq (v : Int) :
    (mpiPayload v).length = if nbits v.natAbs = 0 then 0 else nbits v.natAbs / 8 + 1 := by
  by_cases h0 : v.natAbs = 0
  · have : v = 0 := by omega
    subst this
    rfl
  · obtain ⟨h, rest, e, hne, hlt, hlen, hbit⟩ := bigEndian_nbytes v.natAbs h0
    have hpos := nbits_pos v.natAbs h0
    rw [if_neg (by omega)]
    unfold mpiPayload
    rw [BN_bn2bin_eq, e]
    simp only [signPad]
    unfold nbytes at hlen
    by_cases hs : 128 ≤ h
    · rw [if_pos ((and_80_ne_zero h hlt).2 hs)]
      have := hbit.1 hs
      simp only [List.length_cons]
      omega
    · rw [if_neg (fun hc => hs ((and_80_ne_zero h hlt).1 hc))]
      have : ¬ nbits v.natAbs % 8 = 0 := fun hc => hs (hbit.2 hc)
      simp only [List.length_cons]
      omega

theorem nbits_mono (a b : Nat) (h : a ≤ b) : nbits a ≤ nbits b := by
  rw [nbits_le_iff]
  exact lt_of_le_of_lt h (lt_two_pow_nbits b)

theorem mpiPayload_length_mono (a b : Int) (ha : 0 ≤ a) (hab : a ≤ b) :
    (mpiPayload a).length ≤ (mpiPayload b).length := by
  rw [mpiPayload_length_eq, mpiPayload_length_eq]
  have := nbits_mono a.natAbs b.natAbs (by omega)
  split_ifs <;> omega

theorem mantissa_mono (p q : List Nat) (hp : ∀ x ∈ p, x < 256) (hq : ∀ x ∈ q, x < 256)
    (hlen : p.length = q.length) (hval : BN_bin2bn p ≤ BN_bin2bn q) :
    p.getD 0 0 * 2 ^ 16 + p.getD 1 0 * 2 ^ 8 + p.getD 2 0
      ≤ q.getD 0 0 * 2 ^ 16 + q.getD 1 0 * 2 ^ 8 + q.getD 2 0 := by
  by_cases h3 : 3 ≤ p.length
  · rw [mantissa_eq_div p hp h3, mantissa_eq_div q hq (by omega), hlen]
    exact Nat.div_le_div_right hval
  · match p, q, hlen with
    | [], [], _ => simp
    | [x], [y], _ =>
      simp only [BN_bin2bn, List.foldl_cons, List.foldl_nil] at hval
      simp only [List.getD_cons_zero, List.getD_cons_succ, List.getD_nil]
      omega
    | [x1, x2], [y1, y2], _ =>
      simp only [BN_bin2bn, List.foldl_cons, List.foldl_nil] at hval
      simp only [List.getD_cons_zero, List.getD_cons_succ, List.getD_nil]
      omega
    | _ :: _ :: _ :: _, _, _ => simp at h3

theorem GetCompact_mono (a b : Int) (ha : 0 ≤ a) (hab : a ≤ b)
    (hla : (mpiPayload a).length ≤ 255) (hlb : (mpiPayload b).length ≤ 255) :
    GetCompact a ≤ GetCompact b := by
  rw [GetCompact_eq a hla, GetCompact_eq b hlb]
  have hl := mpiPayload_length_mono a b ha hab
  have a0 := getD_lt _ (mpiPayload_lt a) 0
  have a1 := getD_lt _ (mpiPayload_lt a) 1
  have a2 := getD_lt _ (mpiPayload_lt a) 2
  rcases Nat.lt_or_eq_of_le hl with hlt | heq
  · omega
  · have hm := mantissa_mono _ _ (mpiPayload_lt a) (mpiPayload_lt b) heq (by
      rw [bin2bn_mpiPayload_nonneg a ha, bin2bn_mpiPayload_nonneg b (by omega)]
      omega)
    rw [heq]
    omega

theorem GetCompact_lt (v : Int) (h : (mpiPayload v).length ≤ 255) : GetCompact v < 2 ^ 32 := by
  rw [GetCompact_eq v h]
  have a0 := getD_lt _ (mpiPayload_lt v) 0
  have a1 := getD_lt _ (mpiPayload_lt v) 1
  have a2 := getD_lt _ (mpiPayload_lt v) 2
  omega

/-- Claim C18: `GetCompact` preserves the order of non-negative values: for
`0 ≤ a ≤ b` with MPI payloads of at most 255 bytes,
`GetCompact a ≤ GetCompact b`, both being 32-bit words. -/
theorem GetCompact_order_preserving (a b : Int) (ha : 0 ≤ a) (hab : a ≤ b)
    (hla : ((BN_bn2mpi a).drop 4).length ≤ 255) (hlb : ((BN_bn2mpi b).drop 4).length ≤ 255) :
    GetCompact a ≤ GetCompact b ∧ GetCompact b < 2 ^ 32 := by
  rw [drop_four_bn2mpi] at hla hlb
  exact ⟨GetCompact_mono a b ha hab hla hlb, GetCompact_lt b hlb⟩

theorem GetCompact_order_preserving_witness :
    ((0 : Int) ≤ 0x7fffff ∧ (0x7fffff : Int) ≤ 0x800000 ∧
        ((BN_bn2mpi 0x7fffff).drop 4).length ≤ 255 ∧
        ((BN_bn2mpi 0x800000).drop 4).length ≤ 255) ∧
      (GetCompact 0x7fffff ≤ GetCompact 0x800000 ∧ GetCompact 0x800000 < 2 ^ 32) :=
  ⟨⟨by decide, by decide, by decide, by decide⟩,
    GetCompact_order_preserving 0x7fffff 0x800000 (by decide) (by decide) (by decide)
      (by decide)⟩

/-! ## Re-encoding a decoded compact word -/

theorem bigEndian_bin2bn (bs : List Nat) (hb : ∀ b ∈ bs, b < 256) :
    bigEndian bs.length (BN_bin2bn bs) = bs := by
  induction bs using List.reverseRecOn with
  | nil => rfl
  | append_singleton bs x ih =>
    have hx : x < 256 := hb x (by simp)
    have hbs : ∀ b ∈ bs, b < 256 := fun b h => hb b (by simp [h])
    rw [List.length_append, List.length_singleton, bigEndian, bin2bn_append_single]
    have e1 : (BN_bin2bn bs * 256 + x) / 256 = BN_bin2bn bs := by omega
    have e2 : (BN_bin2bn bs * 256 + x) % 256 = x := by omega
    rw [e1, e2, ih hbs]

theorem nbytes_bin2bn (h : Nat) (rest : List Nat) (hh : h < 256) (h0 : h ≠ 0)
    (hr : ∀ b ∈ rest, b < 256) : nbytes (BN_bin2bn (h :: rest)) = rest.length + 1 := by
  have hlt := bin2bn_lt (h :: rest) (by
    intro b hb
    rcases List.mem_cons.1 hb with e | e
    · rw [e]; exact hh
    · exact hr b e)
  rw [List.length_cons] at hlt
  have h1 := (nbytes_le_iff _ _).2 hlt
  have h2 : rest.length < nbytes (BN_bin2bn (h :: rest)) := by
    rw [lt_nbytes_iff, bin2bn_cons]
    have := Nat.mul_le_mul_right (256 ^ rest.length) (show 1 ≤ h by omega)
    omega
  omega

theorem mpiPayload_decode_signPad (neg : Bool) (h : Nat) (rest : List Nat) (hh : h < 256)
    (h0 : h ≠ 0) (hr : ∀ b ∈ rest, b < 256) :
    mpiPayload (decodePayload (signPad neg (h :: rest))) = signPad neg (h :: rest) := by
  have hb : ∀ b ∈ h :: rest, b < 256 := by
    intro b hb
    rcases List.mem_cons.1 hb with e | e
    · rw [e]; exact hh
    · exact hr b e
  have hpos : 0 < BN_bin2bn (h :: rest) := by
    rw [bin2bn_cons]
    have := Nat.mul_le_mul_right (256 ^ rest.length) (show 1 ≤ h by omega)
    have := pow_pos (show 0 < 256 by norm_num) rest.length
    omega
  have hnat : bigEndian (nbytes (BN_bin2bn (h :: rest))) (BN_bin2bn (h :: rest)) = h :: rest := by
    rw [nbytes_bin2bn h rest hh h0 hr]
    exact bigEndian_bin2bn (h :: rest) hb
  rw [decodePayload_signPad neg _ hb]
  unfold mpiPayload
  rw [BN_bn2bin_eq]
  cases neg
  · simp only [Bool.false_eq_true, if_false, Int.natAbs_ofNat, hnat]
    have : ¬ ((BN_bin2bn (h :: rest) : Int) < 0) := by omega
    simp [this]
  · simp only [if_true, Int.natAbs_neg, Int.natAbs_ofNat, hnat]
    have : (-(BN_bin2bn (h :: rest) : Int) < 0) := by omega
    simp [this]

/-- The payload `SetCompact` rebuilds from the word `GetCompact` made of the
payload `p`. -/
theorem truncated_signPad (neg : Bool) (h : Nat) (rest : List Nat) (hh : h < 256)
    (hr : ∀ b ∈ rest, b < 256) (hl : 3 < (signPad neg (h :: rest)).length) :
    ∃ rest1, (∀ b ∈ rest1, b < 256) ∧
      [(signPad neg (h :: rest)).getD 0 0, (signPad neg (h :: rest)).getD 1 0,
          (signPad neg (h :: rest)).getD 2 0]
        ++ List.replicate ((signPad neg (h :: rest)).length - 3) 0
        = signPad neg (h :: rest1) := by
  simp only [signPad] at hl ⊢
  by_cases hs : 128 ≤ h
  · have hc := (and_80_ne_zero h hh).2 hs
    rw [if_pos hc] at hl ⊢
    match rest, hr, hl with
    | r1 :: rest2, hr, _ =>
      refine ⟨r1 :: List.replicate rest2.length 0, ?_, ?_⟩
      · intro b hb
        simp only [List.mem_cons, List.mem_replicate] at hb
        rcases hb with e | ⟨_, e⟩
        · rw [e]; exact hr r1 (by simp)
        · omega
      · have hc1 : ¬ h &&& 128 = 0 := hc
        simp [hc1]
    | [], _, hl => simp at hl
  · have hc : ¬ h &&& 0x80 ≠ 0 := fun hc => hs ((and_80_ne_zero h hh).1 hc)
    rw [if_neg hc] at hl ⊢
    match rest, hr, hl with
    | r1 :: r2 :: rest2, hr, _ =>
      refine ⟨r1 :: r2 :: List.replicate rest2.length 0, ?_, ?_⟩
      · intro b hb
        simp only [List.mem_cons, List.mem_replicate] at hb
        rcases hb with e | e | ⟨_, e⟩
        · rw [e]; exact hr r1 (by simp)
        · rw [e]; exact hr r2 (by simp)
        · omega
      · have hc1 : h &&& 128 = 0 := by simpa using hc
        simp [hc1]
    | [_], _, hl => simp at hl
    | [], _, hl => simp at hl

theorem GetCompact_stable (self v : Int) (h : (mpiPayload v).length ≤ 255) :
    GetCompact (SetCompact self (GetCompact v)) = GetCompact v := by
  by_cases h3 : (mpiPayload v).length ≤ 3
  · rw [SetCompact_GetCompact self v h3]
  · have hv : v.natAbs ≠ 0 := by
      intro h0
      have : v = 0 := by omega
      subst this
      exact h3 (by decide)
    obtain ⟨hd, rest, e, hne, hlt, -, -⟩ := bigEndian_nbytes v.natAbs hv
    have hr : ∀ b ∈ rest, b < 256 := by
      intro b hb
      exact bigEndian_lt _ _ b (by rw [e]; exact List.mem_cons_of_mem _ hb)
    have hp : mpiPayload v = signPad (decide (v < 0)) (hd :: rest) := by
      unfold mpiPayload
      rw [BN_bn2bin_eq, e]
    obtain ⟨rest1, hr1, ht⟩ := truncated_signPad (decide (v < 0)) hd rest hlt hr
      (by rw [← hp]; omega)
    rw [← hp] at ht
    have hc := GetCompact_lt v h
    have hg := GetCompact_eq v h
    have l0 := getD_lt _ (mpiPayload_lt v) 0
    have l1 := getD_lt _ (mpiPayload_lt v) 1
    have l2 := getD_lt _ (mpiPayload_lt v) 2
    have hn : GetCompact v >>> 24 = (mpiPayload v).length := by
      rw [Nat.shiftRight_eq_div_pow]; omega
    have h16 : (GetCompact v >>> 16) &&& 0xff = (mpiPayload v).getD 0 0 := by
      rw [and_ff, Nat.shiftRight_eq_div_pow]; omega
    have h8 : (GetCompact v >>> 8) &&& 0xff = (mpiPayload v).getD 1 0 := by
      rw [and_ff, Nat.shiftRight_eq_div_pow]; omega
    have h0 : (GetCompact v >>> 0) &&& 0xff = (mpiPayload v).getD 2 0 := by
      rw [and_ff, Nat.shiftRight_eq_div_pow]; omega
    have hcp : compactPayload (GetCompact v) = signPad (decide (v < 0)) (hd :: rest1) := by
      rw [compactPayload_large _ (by omega), hn, h16, h8, h0]
      exact ht
    have hw : mpiPayload (SetCompact self (GetCompact v))
        = [(mpiPayload v).getD 0 0, (mpiPayload v).getD 1 0, (mpiPayload v).getD 2 0]
          ++ List.replicate ((mpiPayload v).length - 3) 0 := by
      rw [SetCompact_eq_decode self _ hc, hcp,
        mpiPayload_decode_signPad _ hd rest1 hlt hne hr1, ← ht]
    have hlen : (mpiPayload (SetCompact self (GetCompact v))).length = (mpiPayload v).length := by
      rw [hw, List.length_append, List.length_replicate]
      simp only [List.length_cons, List.length_nil]
      omega
    rw [GetCompact_eq _ (by omega), hlen, hw, hg]
    simp

/-- Claim C19: the compact encoding is stable after one lossy pass: for every
value of either sign whose MPI payload has at most 255 bytes,
`GetCompact (SetCompact (GetCompact v)) = GetCompact v`. -/
theorem GetCompact_SetCompact_GetCompact (self v : Int)
    (h : ((BN_bn2mpi v).drop 4).length ≤ 255) :
    GetCompact (SetCompact self (GetCompact v)) = GetCompact v := by
  rw [drop_four_bn2mpi] at h
  exact GetCompact_stable self v h

theorem GetCompact_SetCompact_GetCompact_witness :
    ((BN_bn2mpi (-0x123456789a)).drop 4).length ≤ 255 ∧
      GetCompact (SetCompact 7 (GetCompact (-0x123456789a))) = GetCompact (-0x123456789a) :=
  ⟨by decide, GetCompact_SetCompact_GetCompact 7 (-0x123456789a) (by decide)⟩

end CBigNum
